import Mathlib

/-!
# Threagile: technology table and scripted risk rules

A shallow embedding of `pkg/security/types/technology-map.go` and
`pkg/script/risk-rule.go`, followed by the properties proved about them.

Conventions of the embedding

* A Go `map[string]V` is a list of `(key, value)` entries (`GoMap V`). A Go map
  holds every key once; theorems that depend on it assume `GoMap.NodupKeys`.
  `range` visits the entries in list order; since Go leaves that order open,
  order independence is proved separately where a claim needs it.
* A Go slice that may be `nil` is an `Option (List α)`: `none` is the nil slice,
  `some []` the empty slice made by `make`.
* A Go `error` is the text of its `Error()`; a nil error is `none`.
* Recursion that the Go code does not bound is given a fuel argument counting
  nested calls; `none` means the fuel ran out before the call returned.
-/

namespace Threagile

/-! ## Go maps -/

/-- Go `map[string]V`. -/
abbrev GoMap (V : Type) := List (String × V)

/-- The keys of a map, one per entry. -/
def GoMap.keys {V : Type} (m : GoMap V) : List String := m.map Prod.fst

/-- Every key is held once. -/
def GoMap.NodupKeys {V : Type} (m : GoMap V) : Prop := (GoMap.keys m).Nodup

/-- Go `v, ok := m[key]`. -/
def GoMap.get {V : Type} : GoMap V → String → Option V
  | [], _ => none
  | (k, v) :: rest, key => if k = key then some v else GoMap.get rest key

/-- Go `m[key] = value`. -/
def GoMap.set {V : Type} : GoMap V → String → V → GoMap V
  | [], key, value => [(key, value)]
  | (k, v) :: rest, key, value =>
    if k = key then (key, value) :: rest else (k, v) :: GoMap.set rest key value

/-- Go `delete(m, key)`. -/
def GoMap.delete {V : Type} (m : GoMap V) (key : String) : GoMap V :=
  m.filter (fun e => decide (e.1 ≠ key))

/-- Go `for key, value := range src { dst[key] = value }`. -/
def GoMap.assignAll {V : Type} (dst src : GoMap V) : GoMap V :=
  src.foldl (fun acc e => GoMap.set acc e.1 e.2) dst

/-! ## Errors -/

/-- A non-nil Go `error`, identified with the text of its `Error()`. -/
structure GoError where
  /-- The text returned by `Error()`. -/
  Error : String
  deriving DecidableEq, Repr

/-! ## `pkg/security/types/technology-map.go` -/

/-- The `Technology` record. Its declaration lies outside the two embedded
files; the three functions below read or write `Name`, `Parent` and
`Attributes`, and every other field travels unchanged in `Extra`. -/
structure Technology (E : Type) where
  Name : String
  Parent : String
  Attributes : GoMap Bool
  Extra : E
  deriving DecidableEq, Repr

/-- Go `type TechnologyMap map[string]Technology`. -/
abbrev TechnologyMap (E : Type) := GoMap (Technology E)

variable {E : Type}

/-- `TechnologyMap.Get`: nil (`none`) when the name is no key, else a pointer to
a copy of the entry. -/
def TechnologyMap.Get (what : TechnologyMap E) (name : String) : Option (Technology E) :=
  match GoMap.get what name with
  | none => none
  | some technology => some technology

/-- The loop of `TechnologyMap.GetAll`, with the slice built so far.
`quote` is Go's `%q` rendering of a string (`strconv.Quote`). -/
def TechnologyMap.GetAll.loop (quote : String → String) (what : TechnologyMap E) :
    List String → List (Technology E) → Option (List (Technology E)) × Option GoError
  | [], technologies => (some technologies, none)
  | name :: rest, technologies =>
    match TechnologyMap.Get what name with
    | none => (none, some ⟨"unknown technology " ++ quote name⟩)
    | some technicalAssetTechnology =>
      TechnologyMap.GetAll.loop quote what rest (technologies ++ [technicalAssetTechnology])

/-- `TechnologyMap.GetAll`. -/
def TechnologyMap.GetAll (quote : String → String) (what : TechnologyMap E)
    (names : List String) : Option (List (Technology E)) × Option GoError :=
  TechnologyMap.GetAll.loop quote what names []

/-- `TechnologyMap.propagateAttributes`, the recursion over `Parent`. The Go
function writes into the map `attributes` it is handed; here the written map
is returned. `fuel` bounds the depth of nested calls. When `name` is no key,
`tech` is the zero `Technology`, whose `Attributes` is the nil map, and the
final loop assigns nothing. -/
def TechnologyMap.propagateAttributes (what : TechnologyMap E) :
    Nat → String → GoMap Bool → Option (GoMap Bool)
  | 0, _, _ => none
  | fuel + 1, name, attributes =>
    match GoMap.get what name with
    | some tech =>
      match TechnologyMap.propagateAttributes what fuel tech.Parent attributes with
      | none => none
      | some attributes => some (GoMap.assignAll attributes tech.Attributes)
    | none => some (GoMap.assignAll attributes [])

/-- The first loop of `TechnologyMap.PropagateAttributes`: for each entry a copy
with a fresh attribute map, filled by `propagateAttributes` over the still
unchanged table, then `Attributes[name] = true` and `Name = name`. -/
def TechnologyMap.PropagateAttributes.collect (what : TechnologyMap E) (fuel : Nat) :
    List (String × Technology E) → List (Technology E) → Option (List (Technology E))
  | [], technologyList => some technologyList
  | (name, value) :: rest, technologyList =>
    match TechnologyMap.propagateAttributes what fuel name [] with
    | none => none
    | some attributes =>
      let technology : Technology E :=
        { value with Attributes := GoMap.set attributes name true, Name := name }
      TechnologyMap.PropagateAttributes.collect what fuel rest (technologyList ++ [technology])

/-- `TechnologyMap.PropagateAttributes`: collect the flattened copies, delete
every key, then store the copies under their names. -/
def TechnologyMap.PropagateAttributes (what : TechnologyMap E) (fuel : Nat) :
    Option (TechnologyMap E) :=
  match TechnologyMap.PropagateAttributes.collect what fuel what [] with
  | none => none
  | some technologyList =>
    let emptied : TechnologyMap E := what.foldl (fun m e => GoMap.delete m e.1) what
    some (technologyList.foldl (fun m technology => GoMap.set m technology.Name technology) emptied)

/-! ## Go's `fmt` with a format string and no operands

`risk-rule.go` hands finished texts to `fmt.Errorf` as the format string, with
no operands. The functions below follow `doPrintf` of Go's `fmt` package for an
empty operand list: text up to a `%` is copied, and what follows a `%` is read
as flags, argument index, width, precision and verb. With no operand to print,
every verb other than `%%` leaves an error marker in the output. -/

namespace Fmt

/-- The flag characters skipped after `%`. -/
def isFlag (c : Char) : Bool :=
  c = '#' || c = '0' || c = '+' || c = '-' || c = ' '

/-- An ASCII digit. -/
def isDigit (c : Char) : Bool := decide ('0' ≤ c) && decide (c ≤ '9')

/-- Go `tooLarge`: a number beyond a million ends number parsing. -/
def tooLarge (x : Nat) : Bool := decide (1000000 < x)

/-- The loop of Go `parsenum` up to the end of the text: the number read so far,
whether a digit was read, and the text left. On overflow the number is dropped
and the position jumps to the end. -/
def parsenumLoop : List Char → Nat → Bool → Nat × Bool × List Char
  | [], num, isnum => (num, isnum, [])
  | c :: rest, num, isnum =>
    if isDigit c then
      if tooLarge num then (0, false, [])
      else parsenumLoop rest (num * 10 + (c.toNat - '0'.toNat)) true
    else (num, isnum, c :: rest)

/-- Go `parsenum`. -/
def parsenum (s : List Char) : Nat × Bool × List Char := parsenumLoop s 0 false

/-- Go `parseArgNumber` on `[` followed by `body`: the text after the bracketed
index and whether the index is a number. A text shorter than three bytes, or
one without `]`, only loses the `[`. -/
def parseArgNumber (body : List Char) : List Char × Bool :=
  if body.length + 1 < 3 then (body, false)
  else
    match body.span (fun c => c ≠ ']') with
    | (_, []) => (body, false)
    | (inner, _ :: after) =>
      let r := parsenum inner
      if r.2.1 && r.2.2.isEmpty then (after, true) else (after, false)

/-- Go `argNumber` with no operands: the text left, whether an index was found,
and `goodArgNum`. No index is in range, so a bracket always clears
`goodArgNum`. -/
def argNumber (s : List Char) (good : Bool) : List Char × Bool × Bool :=
  match s with
  | '[' :: body =>
    let r := parseArgNumber body
    (r.1, r.2, false)
  | _ => (s, false, good)

/-- The width of a verb: `*` finds no operand and writes the bad-width marker;
otherwise a number is read, which after an argument index clears
`goodArgNum`. What is written, the text left, `afterIndex`, `goodArgNum`. -/
def verbWidth (s : List Char) (afterIndex good : Bool) :
    List Char × List Char × Bool × Bool :=
  match s with
  | '*' :: s => ("%!(BADWIDTH)".data, s, false, good)
  | _ =>
    let r := parsenum s
    ([], r.2.2, afterIndex, if afterIndex && r.2.1 then false else good)

/-- The precision of a verb, when a `.` follows that is not the last character
of the format (Go tests `i+1 < end`; a `.` that ends the format is left to be
the verb): an argument index may come first, then `*`, which finds no operand
and writes the bad-precision marker, or a number. -/
def verbPrecision (out s : List Char) (afterIndex good : Bool) :
    List Char × List Char × Bool × Bool :=
  match s with
  | '.' :: c :: rest =>
    let good := if afterIndex then false else good
    let a := argNumber (c :: rest) good
    match a.1 with
    | '*' :: s => (out ++ "%!(BADPREC)".data, s, false, a.2.2)
    | _ => (out, (parsenum a.1).2.2, a.2.1, a.2.2)
  | _ => (out, s, afterIndex, good)

/-- The argument index right before the verb, read unless one was just read. -/
def verbIndex (s : List Char) (afterIndex good : Bool) : List Char × Bool :=
  if afterIndex then (s, good)
  else
    let a := argNumber s good
    (a.1, a.2.2)

/-- The verb character itself: `%%` writes a percent sign, any other verb has
no operand and writes an error marker; a text that ends here writes the
no-verb marker. -/
def verbEmit (out s : List Char) (good : Bool) : List Char × List Char :=
  match s with
  | [] => (out ++ "%!(NOVERB)".data, [])
  | v :: s =>
    if v = '%' then (out ++ ['%'], s)
    else if !good then (out ++ "%!".data ++ [v] ++ "(BADINDEX)".data, s)
    else (out ++ "%!".data ++ [v] ++ "(MISSING)".data, s)

/-- One verb of `doPrintf`, read from the text after its `%`: flags, argument
index, width, precision, argument index, verb. What is written and the text
left. -/
def verb (s : List Char) : List Char × List Char :=
  let a := argNumber (s.dropWhile isFlag) true
  let w := verbWidth a.1 a.2.1 a.2.2
  let p := verbPrecision w.1 w.2.1 w.2.2.1 w.2.2.2
  let i := verbIndex p.2.1 p.2.2.1 p.2.2.2
  verbEmit p.1 i.1 i.2

/-- The loop of `doPrintf`. Every round consumes a character, so a fuel above
the length of the text is never used up (`Fmt.doPrintf_fuel`). -/
def doPrintf : Nat → List Char → List Char
  | 0, _ => []
  | _ + 1, [] => []
  | fuel + 1, c :: rest =>
    if c = '%' then
      let r := verb rest
      r.1 ++ doPrintf fuel r.2
    else c :: doPrintf fuel rest

/-- Go `fmt.Sprintf(format)` with no operands. -/
def Sprintf (format : String) : String :=
  String.mk (doPrintf (format.length + 1) format.data)

end Fmt

/-- Go `fmt.Errorf(format)` with no operands. -/
def Errorf (format : String) : GoError := ⟨Fmt.Sprintf format⟩

/-! ## `pkg/script/risk-rule.go` -/

/-- What `risk-rule.go` uses from outside the two embedded files: the YAML
decoder, the script interpreter (`Script`, `Scope`), the model types and the
indenting helper. Each function returns its Go results side by side, the
error last (`none` is nil). A Go method that writes through a pointer returns
the written value. -/
structure Externals where
  /-- The rule text, `[]byte`. -/
  Bytes : Type
  /-- `types.RiskCategory`. -/
  Category : Type
  /-- The value under the key `risk`, `map[string]any`. -/
  Payload : Type
  /-- What a non-nil `*Script` points to. -/
  Script : Type
  /-- `*Scope`. -/
  Scope : Type
  /-- `*types.Model`. -/
  Model : Type
  /-- `*types.Risk`. -/
  Risk : Type
  /-- An element of the generic asset list returned by the script. -/
  GenericAsset : Type
  /-- `types.TechnicalAsset`. -/
  TechnicalAsset : Type
  /-- `yaml.Unmarshal(text, &what.category)`: the category after decoding into
  the given one, and the error. -/
  unmarshalCategory : Bytes → Category → Category × Option GoError
  /-- `yaml.Unmarshal(text, &rule)` into the fresh local struct: its fields
  `SupportedTags` and `Script`, and the error. -/
  unmarshalRule : Bytes → (Option (List String) × Payload) × Option GoError
  /-- `new(Script).ParseScript(rule.Script)`. -/
  ParseScript : Payload → Option Script × Option GoError
  /-- `(*Script).NewScope(&category)`; the receiver may be nil. -/
  NewScope : Option Script → Category → Scope × Option GoError
  /-- `(*Scope).SetModel(model)`: the scope after the call, and the error. -/
  SetModel : Scope → Model → Scope × Option GoError
  /-- `(*Script).GenerateRisks(scope)`: risks, error literal, error. -/
  GenerateRisks : Script → Scope → Option (List Risk) × String × Option GoError
  /-- `(*Script).GetTechnicalAssetsByRiskID(scope, riskID)`. The returned slice is
  only ranged over, so the nil and the empty slice are both the empty list. -/
  GetTechnicalAssetsByRiskID : Script → Scope → String → List GenericAsset × Option GoError
  /-- `yaml.Marshal(genericAsset)`. -/
  Marshal : GenericAsset → Bytes × Option GoError
  /-- `yaml.Unmarshal(assetData, asset)` into `new(types.TechnicalAsset)`. -/
  Unmarshal : Bytes → TechnicalAsset × Option GoError
  /-- `new(input.Strings).IndentPrintf(level, text)`. -/
  IndentPrintf : Nat → String → String

/-- Go `type RiskRule struct`: the fields the methods use. -/
structure RiskRule (ext : Externals) where
  category : ext.Category
  supportedTags : Option (List String)
  script : Option ext.Script

/-- A call made on the script or on the scope created from it. -/
inductive ScriptCall where
  | NewScope
  | SetModel
  | GenerateRisks
  | GetTechnicalAssetsByRiskID
  deriving DecidableEq, Repr

/-- What a method of `RiskRule` leaves behind: the receiver after the call, the
calls it made on the script and its scope, in order, and the two results. -/
structure Outcome (ext : Externals) (α : Type) where
  what : RiskRule ext
  calls : List ScriptCall
  result : α
  err : Option GoError

/-- `RiskRule.ParseFromData`. The returned rule is the receiver (`some`) or nil
(`none`). -/
def RiskRule.ParseFromData (ext : Externals) (what : RiskRule ext) (text : ext.Bytes) :
    Outcome ext (Option (RiskRule ext)) :=
  let decoded := ext.unmarshalCategory text what.category
  let what : RiskRule ext := { what with category := decoded.1 }
  match decoded.2 with
  | some categoryError => ⟨what, [], none, some categoryError⟩
  | none =>
    let rule := ext.unmarshalRule text
    match rule.2 with
    | some ruleError => ⟨what, [], none, some ruleError⟩
    | none =>
      let what : RiskRule ext := { what with supportedTags := rule.1.1 }
      let built := ext.ParseScript rule.1.2
      match built.2 with
      | some scriptError => ⟨what, [], none, some scriptError⟩
      | none =>
        let what : RiskRule ext := { what with script := built.1 }
        ⟨what, [], some what, none⟩

/-- `RiskRule.Category`. -/
def RiskRule.Category {ext : Externals} (what : RiskRule ext) : ext.Category :=
  what.category

/-- `RiskRule.SupportedTags`. -/
def RiskRule.SupportedTags {ext : Externals} (what : RiskRule ext) : Option (List String) :=
  what.supportedTags

/-- The message assembled by `RiskRule.GenerateRisks` when the script fails:
the two `Sprintf` lines joined by a newline, before `Errorf` reads the result as
a format string. `len(errorLiteral) > 0` holds for every text but the empty
one. -/
def RiskRule.riskErrorMessage (ext : Externals) (riskError : GoError) (errorLiteral : String) :
    String :=
  let msg : List String := []
  let msg := msg ++ ["error generating risks: " ++ riskError.Error ++ "\n"]
  let msg :=
    if errorLiteral.length > 0 then
      msg ++ ["in:\n" ++ ext.IndentPrintf 1 errorLiteral ++ "\n"]
    else msg
  "\n".intercalate msg

/-- `RiskRule.GenerateRisks`. -/
def RiskRule.GenerateRisks (ext : Externals) (what : RiskRule ext) (parsedModel : ext.Model) :
    Outcome ext (Option (List ext.Risk)) :=
  match what.script with
  | none => ⟨what, [], none, some (Errorf "no script found in risk rule")⟩
  | some script =>
    let created := ext.NewScope (some script) what.category
    match created.2 with
    | some scopeError => ⟨what, [.NewScope], none, some scopeError⟩
    | none =>
      let bound := ext.SetModel created.1 parsedModel
      match bound.2 with
      | some modelError => ⟨what, [.NewScope, .SetModel], none, some modelError⟩
      | none =>
        let evaluated := ext.GenerateRisks script bound.1
        match evaluated.2.2 with
        | some riskError =>
          ⟨what, [.NewScope, .SetModel, .GenerateRisks], none,
            some (Errorf (RiskRule.riskErrorMessage ext riskError evaluated.2.1))⟩
        | none => ⟨what, [.NewScope, .SetModel, .GenerateRisks], evaluated.1, none⟩

/-- The conversion loop of `RiskRule.GetTechnicalAssetsByRiskID`, with the
slice built so far. -/
def RiskRule.GetTechnicalAssetsByRiskID.loop (ext : Externals) :
    List ext.GenericAsset → List ext.TechnicalAsset →
      Option (List ext.TechnicalAsset) × Option GoError
  | [], assets => (some assets, none)
  | genericAsset :: rest, assets =>
    let assetData := ext.Marshal genericAsset
    match assetData.2 with
    | some assetError => (none, some assetError)
    | none =>
      let asset := ext.Unmarshal assetData.1
      match asset.2 with
      | some unmarshalError => (none, some unmarshalError)
      | none => RiskRule.GetTechnicalAssetsByRiskID.loop ext rest (assets ++ [asset.1])

/-- `RiskRule.GetTechnicalAssetsByRiskID`. The scope is created and bound
before the script is compared with nil. -/
def RiskRule.GetTechnicalAssetsByRiskID (ext : Externals) (what : RiskRule ext)
    (parsedModel : ext.Model) (riskID : String) :
    Outcome ext (Option (List ext.TechnicalAsset)) :=
  let created := ext.NewScope what.script what.category
  match created.2 with
  | some scopeError => ⟨what, [.NewScope], none, some scopeError⟩
  | none =>
    let bound := ext.SetModel created.1 parsedModel
    match bound.2 with
    | some modelError => ⟨what, [.NewScope, .SetModel], none, some modelError⟩
    | none =>
      match what.script with
      | none =>
        ⟨what, [.NewScope, .SetModel], none, some (Errorf "no script found in risk rule")⟩
      | some script =>
        let found := ext.GetTechnicalAssetsByRiskID script bound.1 riskID
        match found.2 with
        | some lookupError =>
          ⟨what, [.NewScope, .SetModel, .GetTechnicalAssetsByRiskID], none, some lookupError⟩
        | none =>
          let converted := RiskRule.GetTechnicalAssetsByRiskID.loop ext found.1 []
          ⟨what, [.NewScope, .SetModel, .GetTechnicalAssetsByRiskID], converted.1, converted.2⟩

/-- The conversion of one generic asset as the specification words it: encode,
then decode as a technical asset; the first error met, if any. -/
def RiskRule.convert (ext : Externals) (genericAsset : ext.GenericAsset) :
    Except GoError ext.TechnicalAsset :=
  match (ext.Marshal genericAsset).2 with
  | some assetError => .error assetError
  | none =>
    match (ext.Unmarshal (ext.Marshal genericAsset).1).2 with
    | some unmarshalError => .error unmarshalError
    | none => .ok (ext.Unmarshal (ext.Marshal genericAsset).1).1

/-- The scope a rule method works in once `NewScope` and `SetModel` have
returned: newly created from the rule's category, then bound to the model. -/
def RiskRule.boundScope (ext : Externals) (what : RiskRule ext) (parsedModel : ext.Model) :
    ext.Scope :=
  (ext.SetModel (ext.NewScope what.script what.category).1 parsedModel).1

/-! ## A small interpreter to run the rule methods on

A script is a list of asset numbers to flag and the text it reports when one of
them is missing from the model; a model is the list of asset numbers present.
Evaluation flags the listed assets in order and stops at the first missing one,
handing back the risks found so far together with the error. -/

/-- Evaluation in the small interpreter, with the risks found so far. -/
def toyEvaluate (category : Nat) (model : List Nat) (failure : String) :
    List Nat → List (Nat × Nat) → Option (List (Nat × Nat)) × String × Option GoError
  | [], risks => (some risks, "", none)
  | asset :: rest, risks =>
    if asset ∈ model then toyEvaluate category model failure rest (risks ++ [(category, asset)])
    else (some risks, "flag-asset", some ⟨failure⟩)

/-- The small interpreter. Rule texts and encoded assets are lists of numbers;
the asset `0` cannot be decoded. -/
@[reducible] def toyExternals : Externals where
  Bytes := List Nat
  Category := Nat
  Payload := List Nat
  Script := List Nat × String
  Scope := Nat × List Nat
  Model := List Nat
  Risk := Nat × Nat
  GenericAsset := Nat
  TechnicalAsset := Nat
  unmarshalCategory text old :=
    match text with
    | [] => (old, some ⟨"EOF"⟩)
    | c :: _ => (c, none)
  unmarshalRule text :=
    match text with
    | _ :: 0 :: _ => ((none, []), some ⟨"cannot decode rule"⟩)
    | _ :: _ :: script => ((some ["tagged"], script), none)
    | _ => ((none, []), none)
  ParseScript payload :=
    match payload with
    | [] => (none, some ⟨"empty script"⟩)
    | assets => (some (assets, "asset missing"), none)
  NewScope _ category := ((category, []), none)
  SetModel scope model := ((scope.1, model), none)
  GenerateRisks script scope := toyEvaluate scope.1 scope.2 script.2 script.1 []
  GetTechnicalAssetsByRiskID script scope riskID :=
    if riskID = "flagged" then (script.1.filter (fun a => decide (a ∈ scope.2)), none)
    else ([], some ⟨"risk not found"⟩)
  Marshal genericAsset := ([genericAsset], none)
  Unmarshal data :=
    match data with
    | [n + 1] => (n + 1, none)
    | _ => (0, some ⟨"cannot decode asset"⟩)
  IndentPrintf _ text := "    " ++ text

/-- A rule of the small interpreter with category `5`, flagging `assets`. -/
def toyRule (assets : List Nat) (failure : String) : RiskRule toyExternals :=
  { category := (5 : Nat), supportedTags := none, script := some (assets, failure) }

/-- A rule of the small interpreter that was never parsed: its script is nil. -/
def toyUnparsedRule : RiskRule toyExternals :=
  { category := (5 : Nat), supportedTags := none, script := none }

/-! ## `GenerateRisks` with what its callees can write

`RiskRule.GenerateRisks` hands `&what.category` to `NewScope`, calls methods on
the pointer `what.script`, and hands the pointer `parsedModel` to `SetModel`.
Go lets every one of these callees write what the pointers reach, and the scope
may keep the pointers for later calls. The embedding below threads the three
reachable values through the calls, so that what a call leaves in the rule and
in the model is computed from what the callees return, not assumed. -/

/-- What `RiskRule.GenerateRisks` shares with its callees by reference: the
category behind `&what.category`, the script `what.script` points to, and the
model `parsedModel` points to. The field `supportedTags` is handed to no
callee. -/
structure Pointees (ext : Externals) where
  category : ext.Category
  script : ext.Script
  model : ext.Model

/-- The three callees of `RiskRule.GenerateRisks` as state transformers: each
returns its Go results and the shared values as it leaves them. That each is a
function of the shared values and the scope is the proviso of the determinism
claim; that it may write them is what Go allows. -/
structure ScriptEffects (ext : Externals) where
  /-- `what.script.NewScope(&what.category)`. -/
  NewScope : Pointees ext → (ext.Scope × Option GoError) × Pointees ext
  /-- `newScope.SetModel(parsedModel)`: the scope after the call and the error. -/
  SetModel : ext.Scope → Pointees ext → (ext.Scope × Option GoError) × Pointees ext
  /-- `what.script.GenerateRisks(newScope)`: risks, error literal, error. -/
  GenerateRisks : ext.Scope → Pointees ext →
    (Option (List ext.Risk) × String × Option GoError) × Pointees ext

/-- The rule as the callees leave it: category and script are read back through
the pointers, `supportedTags` is the rule's own. -/
def ByReference.writeBack {ext : Externals} (what : RiskRule ext) (shared : Pointees ext) :
    RiskRule ext :=
  { category := shared.category, supportedTags := what.supportedTags,
    script := some shared.script }

/-- `RiskRule.GenerateRisks`, with the writes of its callees made visible: the
outcome, whose field `what` is the rule after the call, and the model after the
call. The nil check comes first and touches nothing; every later return reads
the rule and the model back from what the last callee left. -/
def ByReference.RiskRule.GenerateRisks (ext : Externals) (ops : ScriptEffects ext)
    (what : RiskRule ext) (parsedModel : ext.Model) :
    Outcome ext (Option (List ext.Risk)) × ext.Model :=
  match what.script with
  | none => (⟨what, [], none, some (Errorf "no script found in risk rule")⟩, parsedModel)
  | some script =>
    let created := ops.NewScope ⟨what.category, script, parsedModel⟩
    match created.1.2 with
    | some scopeError =>
      (⟨ByReference.writeBack what created.2, [.NewScope], none, some scopeError⟩,
        created.2.model)
    | none =>
      let bound := ops.SetModel created.1.1 created.2
      match bound.1.2 with
      | some modelError =>
        (⟨ByReference.writeBack what bound.2, [.NewScope, .SetModel], none, some modelError⟩,
          bound.2.model)
      | none =>
        let evaluated := ops.GenerateRisks bound.1.1 bound.2
        match evaluated.1.2.2 with
        | some riskError =>
          (⟨ByReference.writeBack what evaluated.2, [.NewScope, .SetModel, .GenerateRisks], none,
              some (Errorf (RiskRule.riskErrorMessage ext riskError evaluated.1.2.1))⟩,
            evaluated.2.model)
        | none =>
          (⟨ByReference.writeBack what evaluated.2, [.NewScope, .SetModel, .GenerateRisks],
              evaluated.1.1, none⟩,
            evaluated.2.model)

/-- Callees that write nothing, made from functions of their arguments. -/
def ScriptEffects.ofExternals (ext : Externals) : ScriptEffects ext where
  NewScope shared := (ext.NewScope (some shared.script) shared.category, shared)
  SetModel scope shared := (ext.SetModel scope shared.model, shared)
  GenerateRisks scope shared := (ext.GenerateRisks shared.script scope, shared)

/-- Callees of the small interpreter whose evaluation wears the script down: it
strikes the first asset off the script it has just run. -/
def toyWearingEffects : ScriptEffects toyExternals where
  NewScope shared := (toyExternals.NewScope (some shared.script) shared.category, shared)
  SetModel scope shared := (toyExternals.SetModel scope shared.model, shared)
  GenerateRisks scope shared :=
    (toyExternals.GenerateRisks shared.script scope,
      { shared with script := (shared.script.1.tail, shared.script.2) })

/-! ## Parent chains -/

/-- The name reached from `name` by `k` steps along `Parent`, each step taken
from a key of the table; `none` when a name met before the last step is no key. -/
def TechnologyMap.ancestor (what : TechnologyMap E) : Nat → String → Option String
  | 0, name => some name
  | k + 1, name =>
    match GoMap.get what name with
    | none => none
    | some tech => TechnologyMap.ancestor what k tech.Parent

/-- No parent chain revisits a name: a chain reaches a name at one step only. -/
def TechnologyMap.Acyclic (what : TechnologyMap E) : Prop :=
  ∀ (name : String) (i j : Nat) (m : String),
    TechnologyMap.ancestor what i name = some m →
    TechnologyMap.ancestor what j name = some m → i = j

/-- A check of `Acyclic` that can be run: from every key, the chain leaves the
table within as many steps as the table has entries. -/
def TechnologyMap.acyclicCheck (what : TechnologyMap E) : Bool :=
  what.all (fun e => (TechnologyMap.ancestor what (what.length + 1) e.1).isNone)

/-- The table is a Go value: every name is held once, and so is every key of
every attribute map. -/
def TechnologyMap.WellFormed (what : TechnologyMap E) : Prop :=
  GoMap.NodupKeys what ∧ ∀ e ∈ what, GoMap.NodupKeys e.2.Attributes

/-- The parent chain of `name`, nearest first: `name` itself when it is a key,
then its parent, and so on, following `Parent` while the named parent is a key
of the table, for at most `k` entries. -/
def TechnologyMap.parentChain (what : TechnologyMap E) :
    Nat → String → List (String × Technology E)
  | 0, _ => []
  | k + 1, name =>
    match GoMap.get what name with
    | none => []
    | some tech => (name, tech) :: TechnologyMap.parentChain what k tech.Parent

/-- The value of `key` along a chain listed nearest first: that of the nearest
technology whose attribute map holds the key. -/
def TechnologyMap.nearest : List (String × Technology E) → String → Option Bool
  | [], _ => none
  | e :: rest, key => (GoMap.get e.2.Attributes key).or (TechnologyMap.nearest rest key)

/-- The attribute maps of a chain listed nearest first, merged into `acc` from
the most distant technology down to the nearest, a later map overriding an
earlier one. -/
def TechnologyMap.mergeChain (chain : List (String × Technology E)) (acc : GoMap Bool) :
    GoMap Bool :=
  chain.foldr (fun e acc => GoMap.assignAll acc e.2.Attributes) acc

/-- The flattened attribute bag as the specification words it: the attribute
maps along the parent chain of `name` merged from the most distant ancestor
down to `name` itself, a later map overriding an earlier one, and finally the
key `name` set to true. -/
def TechnologyMap.flattened (what : TechnologyMap E) (name : String) : GoMap Bool :=
  GoMap.set (TechnologyMap.mergeChain (TechnologyMap.parentChain what what.length name) [])
    name true

/-- The entry stored for `name` by a flattening pass: the old entry with the
flattened bag and `Name` set to the key it is stored under. -/
def TechnologyMap.flattenedEntry (what : TechnologyMap E) (name : String)
    (value : Technology E) : Technology E :=
  { value with Attributes := TechnologyMap.flattened what name, Name := name }

/-- The table the specification describes as the outcome of flattening: under
every name the old entry with its flattened bag. -/
def TechnologyMap.flattenedTable (what : TechnologyMap E) : TechnologyMap E :=
  what.map (fun e => (e.1, TechnologyMap.flattenedEntry what e.1 e.2))

/-- The names of the proper ancestors of `name` that are keys of the table. -/
def TechnologyMap.properAncestors (what : TechnologyMap E) (name : String) : List String :=
  ((TechnologyMap.parentChain what what.length name).map Prod.fst).tail

/-! ## Example tables -/

/-- The table `{p: attributes {x: true}; c: parent p, no attributes}`. -/
def exampleTable : TechnologyMap Unit :=
  [("p", { Name := "", Parent := "", Attributes := [("x", true)], Extra := () }),
   ("c", { Name := "", Parent := "p", Attributes := [], Extra := () })]

/-- A table whose only technology names itself as its parent. -/
def selfParentTable : TechnologyMap Unit :=
  [("a", { Name := "", Parent := "a", Attributes := [], Extra := () })]

/-- A three-level table `base <- web <- shop`, the nearer levels overriding
`public`. -/
def layeredTable : TechnologyMap Unit :=
  [("shop", { Name := "", Parent := "web", Attributes := [("public", true)], Extra := () }),
   ("web", { Name := "", Parent := "base", Attributes := [("public", false), ("http", true)],
             Extra := () }),
   ("base", { Name := "", Parent := "", Attributes := [("public", true)], Extra := () })]

/-! ## Facts about Go maps -/

theorem GoMap.get_set {V : Type} (m : GoMap V) (k k' : String) (v : V) :
    GoMap.get (GoMap.set m k v) k' = if k = k' then some v else GoMap.get m k' := by
  induction m with
  | nil => simp [GoMap.set, GoMap.get]
  | cons e rest ih =>
    obtain ⟨a, b⟩ := e
    by_cases h : a = k
    · subst h
      by_cases h1 : a = k' <;> simp [GoMap.set, GoMap.get, h1]
    · simp only [GoMap.set, h, if_false, GoMap.get, ih]
      by_cases h1 : a = k'
      · have h2 : ¬ k = k' := fun hk => h (h1.trans hk.symm)
        simp [h1, h2]
      · simp [h1]

theorem GoMap.get_eq_none_iff {V : Type} (m : GoMap V) (k : String) :
    GoMap.get m k = none ↔ k ∉ GoMap.keys m := by
  induction m with
  | nil => simp [GoMap.get, GoMap.keys]
  | cons e rest ih =>
    obtain ⟨a, b⟩ := e
    by_cases h : a = k
    · simp [GoMap.get, GoMap.keys, h]
    · have h' : ¬ k = a := fun hk => h hk.symm
      simpa [GoMap.get, GoMap.keys, h, h'] using ih

theorem GoMap.get_isSome_iff {V : Type} (m : GoMap V) (k : String) :
    (GoMap.get m k).isSome ↔ k ∈ GoMap.keys m := by
  rw [← not_iff_not, ← GoMap.get_eq_none_iff]
  cases GoMap.get m k <;> simp

theorem GoMap.mem_of_get {V : Type} (m : GoMap V) (k : String) (v : V)
    (h : GoMap.get m k = some v) : (k, v) ∈ m := by
  induction m with
  | nil => simp [GoMap.get] at h
  | cons e rest ih =>
    obtain ⟨a, b⟩ := e
    by_cases hk : a = k
    · simp [GoMap.get, hk] at h
      simp [hk, h]
    · simp [GoMap.get, hk] at h
      exact List.mem_cons_of_mem _ (ih h)

theorem GoMap.get_of_mem {V : Type} (m : GoMap V) (k : String) (v : V)
    (hm : GoMap.NodupKeys m) (h : (k, v) ∈ m) : GoMap.get m k = some v := by
  induction m with
  | nil => simp at h
  | cons e rest ih =>
    obtain ⟨a, b⟩ := e
    have hnd : a ∉ GoMap.keys rest ∧ GoMap.NodupKeys rest := by
      simpa [GoMap.NodupKeys, GoMap.keys] using hm
    rcases List.mem_cons.1 h with h | h
    · cases h
      simp [GoMap.get]
    · have hkr : k ∈ GoMap.keys rest := List.mem_map.2 ⟨(k, v), h, rfl⟩
      have hne : ¬ a = k := fun hak => hnd.1 (hak ▸ hkr)
      simpa [GoMap.get, hne] using ih hnd.2 h

theorem GoMap.keys_set {V : Type} (m : GoMap V) (k : String) (v : V) :
    GoMap.keys (GoMap.set m k v) =
      if k ∈ GoMap.keys m then GoMap.keys m else GoMap.keys m ++ [k] := by
  induction m with
  | nil => simp [GoMap.set, GoMap.keys]
  | cons e rest ih =>
    obtain ⟨a, b⟩ := e
    by_cases h : a = k
    · subst h
      simp [GoMap.set, GoMap.keys]
    · have h' : ¬ k = a := fun hk => h hk.symm
      have ih' := ih
      simp only [GoMap.keys] at ih'
      simp only [GoMap.set, h, if_false, GoMap.keys, List.map_cons, List.mem_cons, h', false_or,
        ih']
      split <;> simp

theorem GoMap.nodupKeys_set {V : Type} (m : GoMap V) (k : String) (v : V)
    (hm : GoMap.NodupKeys m) : GoMap.NodupKeys (GoMap.set m k v) := by
  unfold GoMap.NodupKeys at *
  rw [GoMap.keys_set]
  split
  · exact hm
  · rename_i h
    exact List.Nodup.append hm (List.nodup_singleton k) (by simpa using h)

theorem GoMap.nodupKeys_assignAll {V : Type} (src dst : GoMap V)
    (hd : GoMap.NodupKeys dst) : GoMap.NodupKeys (GoMap.assignAll dst src) := by
  induction src generalizing dst with
  | nil => simpa [GoMap.assignAll] using hd
  | cons e rest ih =>
    simpa [GoMap.assignAll] using ih (GoMap.set dst e.1 e.2) (GoMap.nodupKeys_set dst e.1 e.2 hd)

/-- After `for k, v := range src { dst[k] = v }` a key of `src` holds the value
it has in `src`, every other key what it held in `dst`. -/
theorem GoMap.get_assignAll {V : Type} (src dst : GoMap V) (k : String)
    (hs : GoMap.NodupKeys src) :
    GoMap.get (GoMap.assignAll dst src) k = (GoMap.get src k).or (GoMap.get dst k) := by
  induction src generalizing dst with
  | nil => simp [GoMap.assignAll, GoMap.get]
  | cons e rest ih =>
    obtain ⟨a, b⟩ := e
    have hnd : a ∉ GoMap.keys rest ∧ GoMap.NodupKeys rest := by
      simpa [GoMap.NodupKeys, GoMap.keys] using hs
    have step : GoMap.assignAll dst ((a, b) :: rest) = GoMap.assignAll (GoMap.set dst a b) rest := by
      simp [GoMap.assignAll]
    rw [step, ih _ hnd.2, GoMap.get_set]
    by_cases h : a = k
    · subst h
      have : GoMap.get rest a = none := (GoMap.get_eq_none_iff rest a).2 hnd.1
      simp [GoMap.get, this]
    · simp [GoMap.get, h]

theorem GoMap.get_perm {V : Type} {m m' : GoMap V} (hp : m.Perm m')
    (hm : GoMap.NodupKeys m) (k : String) : GoMap.get m k = GoMap.get m' k := by
  have hm' : GoMap.NodupKeys m' := by
    unfold GoMap.NodupKeys GoMap.keys at *
    exact (hp.map Prod.fst).nodup_iff.1 hm
  cases h : GoMap.get m k with
  | none =>
    have : k ∉ GoMap.keys m' := by
      intro hk
      exact (GoMap.get_eq_none_iff m k).1 h ((hp.map Prod.fst).mem_iff.2 hk)
    exact ((GoMap.get_eq_none_iff m' k).2 this).symm
  | some v =>
    exact (GoMap.get_of_mem m' k v hm' (hp.mem_iff.1 (GoMap.mem_of_get m k v h))).symm

/-! ## Facts about parent chains -/

theorem TechnologyMap.ancestor_add (what : TechnologyMap E) (i j : Nat) (name : String) :
    TechnologyMap.ancestor what (i + j) name =
      (TechnologyMap.ancestor what i name).bind (TechnologyMap.ancestor what j) := by
  induction i generalizing name with
  | zero => simp [TechnologyMap.ancestor]
  | succ i ih =>
    rw [Nat.succ_add]
    cases h : GoMap.get what name with
    | none => simp [TechnologyMap.ancestor, h]
    | some tech => simp [TechnologyMap.ancestor, h, ih]

theorem TechnologyMap.ancestor_none_mono (what : TechnologyMap E) (k d : Nat) (name : String)
    (h : TechnologyMap.ancestor what k name = none) :
    TechnologyMap.ancestor what (k + d) name = none := by
  rw [TechnologyMap.ancestor_add, h]
  rfl

theorem TechnologyMap.ancestor_none_of_le (what : TechnologyMap E) {k k' : Nat} (name : String)
    (hk : k ≤ k') (h : TechnologyMap.ancestor what k name = none) :
    TechnologyMap.ancestor what k' name = none := by
  obtain ⟨d, rfl⟩ := Nat.exists_eq_add_of_le hk
  exact TechnologyMap.ancestor_none_mono what k d name h

/-- A name from which one more step can be taken is a key. -/
theorem TechnologyMap.ancestor_key (what : TechnologyMap E) (i : Nat) (name m x : String)
    (hi : TechnologyMap.ancestor what i name = some x)
    (hs : TechnologyMap.ancestor what (i + 1) name = some m) : x ∈ GoMap.keys what := by
  rw [TechnologyMap.ancestor_add, hi] at hs
  apply (GoMap.get_isSome_iff what x).1
  cases h : GoMap.get what x with
  | none => simp [TechnologyMap.ancestor, h] at hs
  | some t => rfl

/-- In an acyclic table every chain leaves the table within as many steps as
the table has entries. -/
theorem TechnologyMap.Acyclic.ancestor_none (what : TechnologyMap E)
    (hac : TechnologyMap.Acyclic what) (name : String) :
    TechnologyMap.ancestor what (what.length + 1) name = none := by
  by_contra hne
  obtain ⟨m, hm⟩ := Option.ne_none_iff_exists'.1 hne
  have hsome : ∀ i, i ≤ what.length + 1 →
      ∃ x, TechnologyMap.ancestor what i name = some x := by
    intro i hi
    cases h : TechnologyMap.ancestor what i name with
    | none => rw [TechnologyMap.ancestor_none_of_le what name hi h] at hm; cases hm
    | some x => exact ⟨x, rfl⟩
  have hcard : (Finset.range (what.length + 1)).card ≤ (GoMap.keys what).toFinset.card := by
    apply Finset.card_le_card_of_injOn (fun i => (TechnologyMap.ancestor what i name).getD "")
    · intro i hi
      have hi' : i < what.length + 1 := Finset.mem_range.1 hi
      obtain ⟨x, hx⟩ := hsome i (Nat.le_of_lt hi')
      obtain ⟨y, hy⟩ := hsome (i + 1) hi'
      have := TechnologyMap.ancestor_key what i name y x hx hy
      simpa [hx] using this
    · intro i hi j hj hij
      have hi' : i < what.length + 1 := Finset.mem_range.1 (Finset.mem_coe.1 hi)
      have hj' : j < what.length + 1 := Finset.mem_range.1 (Finset.mem_coe.1 hj)
      obtain ⟨x, hx⟩ := hsome i (Nat.le_of_lt hi')
      obtain ⟨y, hy⟩ := hsome j (Nat.le_of_lt hj')
      simp only [hx, hy, Option.getD_some] at hij
      subst hij
      exact hac name i j x hx hy
  have hlen : (GoMap.keys what).toFinset.card ≤ what.length := by
    have := List.toFinset_card_le (GoMap.keys what)
    simpa [GoMap.keys] using this
  rw [Finset.card_range] at hcard
  omega

/-- A name that comes back to itself after `d + 1` steps comes back after every
multiple of `d + 1` steps. -/
theorem TechnologyMap.ancestor_cycle (what : TechnologyMap E) (x : String) (d : Nat)
    (hd : TechnologyMap.ancestor what (d + 1) x = some x) (t : Nat) :
    TechnologyMap.ancestor what (t * (d + 1)) x = some x := by
  induction t with
  | zero => simp [TechnologyMap.ancestor]
  | succ t ih =>
    rw [Nat.succ_mul, TechnologyMap.ancestor_add, ih]
    exact hd

/-- On a cycle the chain never leaves the table. -/
theorem TechnologyMap.ancestor_cycle_ne_none (what : TechnologyMap E) (x : String) (d : Nat)
    (hd : TechnologyMap.ancestor what (d + 1) x = some x) (k : Nat) :
    TechnologyMap.ancestor what k x ≠ none := by
  intro hk
  have h1 := TechnologyMap.ancestor_cycle what x d hd k
  have h2 : TechnologyMap.ancestor what (k * (d + 1)) x = none :=
    TechnologyMap.ancestor_none_of_le what x (Nat.le_mul_of_pos_right _ (Nat.succ_pos d)) hk
  rw [h2] at h1
  cases h1

/-- A table in which no name comes back to itself is acyclic. -/
theorem TechnologyMap.acyclic_of_no_return (what : TechnologyMap E)
    (h : ∀ (x : String) (d : Nat), TechnologyMap.ancestor what (d + 1) x ≠ some x) :
    TechnologyMap.Acyclic what := by
  intro name i j m hi hj
  rcases Nat.lt_trichotomy i j with hlt | heq | hlt
  · exfalso
    obtain ⟨d, rfl⟩ : ∃ d, j = i + (d + 1) := ⟨j - i - 1, by omega⟩
    rw [TechnologyMap.ancestor_add, hi] at hj
    exact h m d hj
  · exact heq
  · exfalso
    obtain ⟨d, rfl⟩ : ∃ d, i = j + (d + 1) := ⟨i - j - 1, by omega⟩
    rw [TechnologyMap.ancestor_add, hj] at hi
    exact h m d hi

/-- The check that can be run implies acyclicity. -/
theorem TechnologyMap.acyclic_of_check (what : TechnologyMap E)
    (hc : TechnologyMap.acyclicCheck what = true) : TechnologyMap.Acyclic what := by
  apply TechnologyMap.acyclic_of_no_return
  intro x d hd
  have hxk : x ∈ GoMap.keys what := by
    apply (GoMap.get_isSome_iff what x).1
    cases hg : GoMap.get what x with
    | none => simp [TechnologyMap.ancestor, hg] at hd
    | some t => rfl
  obtain ⟨e, he, rfl⟩ := List.mem_map.1 hxk
  have := (List.all_eq_true.1 hc) e he
  exact TechnologyMap.ancestor_cycle_ne_none what e.1 d hd (what.length + 1) (by simpa using this)

/-- When the chain of `name` has left the table after `k + 1` steps, its first
`k` entries are the whole chain. -/
theorem TechnologyMap.parentChain_stable (what : TechnologyMap E) (k k' : Nat) (name : String)
    (h : TechnologyMap.ancestor what (k + 1) name = none) (hk : k ≤ k') :
    TechnologyMap.parentChain what k' name = TechnologyMap.parentChain what k name := by
  induction k generalizing name k' with
  | zero =>
    have hg : GoMap.get what name = none := by
      cases hg : GoMap.get what name with
      | none => rfl
      | some t => simp [TechnologyMap.ancestor, hg] at h
    cases k' <;> simp [TechnologyMap.parentChain, hg]
  | succ k ih =>
    obtain ⟨k'', rfl⟩ : ∃ k'', k' = k'' + 1 := ⟨k' - 1, by omega⟩
    cases hg : GoMap.get what name with
    | none => simp [TechnologyMap.parentChain, hg]
    | some t =>
      have h' : TechnologyMap.ancestor what (k + 1) t.Parent = none := by
        simpa [TechnologyMap.ancestor, hg] using h
      simp [TechnologyMap.parentChain, hg, ih k'' t.Parent h' (by omega)]

/-- In an acyclic table the chain cut at the number of entries is the whole
chain: a longer cut adds nothing. -/
theorem TechnologyMap.Acyclic.parentChain_length (what : TechnologyMap E)
    (hac : TechnologyMap.Acyclic what) (k : Nat) (name : String) (hk : what.length ≤ k) :
    TechnologyMap.parentChain what k name =
      TechnologyMap.parentChain what what.length name :=
  TechnologyMap.parentChain_stable what what.length k name
    (TechnologyMap.Acyclic.ancestor_none what hac name) hk

theorem TechnologyMap.mem_parentChain (what : TechnologyMap E) (k : Nat) (name : String)
    (e : String × Technology E) (he : e ∈ TechnologyMap.parentChain what k name) : e ∈ what := by
  induction k generalizing name with
  | zero => simp [TechnologyMap.parentChain] at he
  | succ k ih =>
    cases hg : GoMap.get what name with
    | none => simp [TechnologyMap.parentChain, hg] at he
    | some t =>
      simp only [TechnologyMap.parentChain, hg, List.mem_cons] at he
      rcases he with he | he
      · subst he
        exact GoMap.mem_of_get what name t hg
      · exact ih t.Parent he

/-- What `propagateAttributes` computes: with `k + 1` nested calls allowed it
returns exactly when the chain leaves the table within `k + 1` steps, and then
it has merged the chain into the map it was handed. -/
theorem TechnologyMap.propagateAttributes_eq (what : TechnologyMap E) (k : Nat)
    (name : String) (attributes : GoMap Bool) :
    TechnologyMap.propagateAttributes what (k + 1) name attributes =
      if TechnologyMap.ancestor what (k + 1) name = none then
        some (TechnologyMap.mergeChain (TechnologyMap.parentChain what k name) attributes)
      else none := by
  induction k generalizing name with
  | zero =>
    cases hg : GoMap.get what name with
    | none =>
      simp [TechnologyMap.propagateAttributes, TechnologyMap.ancestor, TechnologyMap.parentChain,
        TechnologyMap.mergeChain, GoMap.assignAll, hg]
    | some t =>
      simp [TechnologyMap.propagateAttributes, TechnologyMap.ancestor, hg]
  | succ k ih =>
    cases hg : GoMap.get what name with
    | none =>
      simp [TechnologyMap.propagateAttributes, TechnologyMap.ancestor, TechnologyMap.parentChain,
        TechnologyMap.mergeChain, GoMap.assignAll, hg]
    | some t =>
      have e1 : TechnologyMap.propagateAttributes what (k + 1 + 1) name attributes =
          match TechnologyMap.propagateAttributes what (k + 1) t.Parent attributes with
          | none => none
          | some attributes => some (GoMap.assignAll attributes t.Attributes) := by
        simp [TechnologyMap.propagateAttributes, hg]
      have e2 : TechnologyMap.ancestor what (k + 1 + 1) name =
          TechnologyMap.ancestor what (k + 1) t.Parent := by
        simp [TechnologyMap.ancestor, hg]
      have e3 : TechnologyMap.parentChain what (k + 1) name =
          (name, t) :: TechnologyMap.parentChain what k t.Parent := by
        simp [TechnologyMap.parentChain, hg]
      rw [e1, e2, e3, ih t.Parent]
      by_cases hn : TechnologyMap.ancestor what (k + 1) t.Parent = none
      · simp [hn, TechnologyMap.mergeChain]
      · simp [hn]

/-- The value of a key after merging a chain: the nearest technology that
holds the key decides, and the map merged into is consulted last. -/
theorem TechnologyMap.get_mergeChain (chain : List (String × Technology E))
    (acc : GoMap Bool) (key : String)
    (hnd : ∀ e ∈ chain, GoMap.NodupKeys e.2.Attributes) :
    GoMap.get (TechnologyMap.mergeChain chain acc) key =
      (TechnologyMap.nearest chain key).or (GoMap.get acc key) := by
  induction chain with
  | nil => simp [TechnologyMap.mergeChain, TechnologyMap.nearest]
  | cons e rest ih =>
    have ih' := ih (fun e' he' => hnd e' (List.mem_cons_of_mem _ he'))
    have step : TechnologyMap.mergeChain (e :: rest) acc =
        GoMap.assignAll (TechnologyMap.mergeChain rest acc) e.2.Attributes := by
      simp [TechnologyMap.mergeChain]
    rw [step, GoMap.get_assignAll _ _ _ (hnd e (List.mem_cons_self _ _)), ih']
    simp [TechnologyMap.nearest, Option.or_assoc]

theorem TechnologyMap.nodupKeys_mergeChain (chain : List (String × Technology E))
    (acc : GoMap Bool) (ha : GoMap.NodupKeys acc) :
    GoMap.NodupKeys (TechnologyMap.mergeChain chain acc) := by
  induction chain with
  | nil => simpa [TechnologyMap.mergeChain] using ha
  | cons e rest ih =>
    have step : TechnologyMap.mergeChain (e :: rest) acc =
        GoMap.assignAll (TechnologyMap.mergeChain rest acc) e.2.Attributes := by
      simp [TechnologyMap.mergeChain]
    rw [step]
    exact GoMap.nodupKeys_assignAll _ _ ih

theorem TechnologyMap.nodupKeys_flattened (what : TechnologyMap E) (name : String) :
    GoMap.NodupKeys (TechnologyMap.flattened what name) :=
  GoMap.nodupKeys_set _ _ _
    (TechnologyMap.nodupKeys_mergeChain _ _ (by simp [GoMap.NodupKeys, GoMap.keys]))

/-- The flattened bag, key by key: the name itself is true, any other key has
the value the nearest technology of the chain gives it. -/
theorem TechnologyMap.get_flattened (what : TechnologyMap E)
    (hwf : TechnologyMap.WellFormed what) (name key : String) :
    GoMap.get (TechnologyMap.flattened what name) key =
      if name = key then some true
      else TechnologyMap.nearest (TechnologyMap.parentChain what what.length name) key := by
  unfold TechnologyMap.flattened
  rw [GoMap.get_set, TechnologyMap.get_mergeChain _ _ _
    (fun e he => hwf.2 e (TechnologyMap.mem_parentChain what _ name e he))]
  simp [GoMap.get]

/-! ## Facts about `PropagateAttributes` -/

theorem GoMap.set_of_not_mem {V : Type} (m : GoMap V) (k : String) (v : V)
    (h : k ∉ GoMap.keys m) : GoMap.set m k v = m ++ [(k, v)] := by
  induction m with
  | nil => simp [GoMap.set]
  | cons e rest ih =>
    obtain ⟨a, b⟩ := e
    have h1 : ¬ a = k := fun hak => h (by simp [GoMap.keys, hak])
    have h2 : k ∉ GoMap.keys rest := fun hk => h (by
      simp only [GoMap.keys, List.map_cons, List.mem_cons]
      exact Or.inr hk)
    simp [GoMap.set, h1, ih h2]

/-- Deleting every key of a list that covers the keys of `m` empties `m`. -/
theorem GoMap.foldl_delete_eq_nil {V W : Type} (l : GoMap W) (m : GoMap V)
    (h : ∀ e ∈ m, e.1 ∈ GoMap.keys l) :
    l.foldl (fun m e => GoMap.delete m e.1) m = [] := by
  induction l generalizing m with
  | nil =>
    cases m with
    | nil => rfl
    | cons e rest => simpa [GoMap.keys] using h e (List.mem_cons_self _ _)
  | cons a l ih =>
    simp only [List.foldl_cons]
    apply ih
    intro e he
    have hm : e ∈ m ∧ e.1 ≠ a.1 := by simpa [GoMap.delete] using he
    have := h e hm.1
    simp only [GoMap.keys, List.map_cons, List.mem_cons] at this
    rcases this with h1 | h1
    · exact absurd h1 hm.2
    · exact h1

/-- Storing records with pairwise different fresh names appends them in order. -/
theorem TechnologyMap.foldl_set_fresh (l : List (Technology E)) (m : TechnologyMap E)
    (hl : (l.map (fun t => t.Name)).Nodup) (hf : ∀ t ∈ l, t.Name ∉ GoMap.keys m) :
    l.foldl (fun m technology => GoMap.set m technology.Name technology) m =
      m ++ l.map (fun t => (t.Name, t)) := by
  induction l generalizing m with
  | nil => simp
  | cons t rest ih =>
    have hnd : t.Name ∉ rest.map (fun t => t.Name) ∧ (rest.map (fun t => t.Name)).Nodup := by
      simpa using hl
    simp only [List.foldl_cons]
    rw [GoMap.set_of_not_mem m t.Name t (hf t (List.mem_cons_self _ _)), ih _ hnd.2]
    · simp
    · intro t' ht' hk
      simp only [GoMap.keys, List.map_append, List.map_cons, List.map_nil, List.mem_append,
        List.mem_singleton] at hk
      rcases hk with hk | hk
      · exact hf t' (List.mem_cons_of_mem _ ht') hk
      · exact hnd.1 (List.mem_map.2 ⟨t', ht', hk⟩)

theorem TechnologyMap.collect_eq (what : TechnologyMap E) (fuel : Nat)
    (A : String → GoMap Bool) (entries : List (String × Technology E))
    (acc : List (Technology E))
    (h : ∀ e ∈ entries, TechnologyMap.propagateAttributes what fuel e.1 [] = some (A e.1)) :
    TechnologyMap.PropagateAttributes.collect what fuel entries acc =
      some (acc ++ entries.map
        (fun e => { e.2 with Attributes := GoMap.set (A e.1) e.1 true, Name := e.1 })) := by
  induction entries generalizing acc with
  | nil => simp [TechnologyMap.PropagateAttributes.collect]
  | cons e rest ih =>
    obtain ⟨name, value⟩ := e
    have h1 := h (name, value) (List.mem_cons_self _ _)
    simp only at h1
    simp only [TechnologyMap.PropagateAttributes.collect, h1]
    rw [ih _ (fun e he => h e (List.mem_cons_of_mem _ he))]
    simp

/-- With enough fuel `propagateAttributes`, started on the empty map, returns the
merged chain. -/
theorem TechnologyMap.Acyclic.propagateAttributes_returns (what : TechnologyMap E)
    (hac : TechnologyMap.Acyclic what) (fuel : Nat) (hfuel : what.length + 1 ≤ fuel)
    (name : String) (attributes : GoMap Bool) :
    TechnologyMap.propagateAttributes what fuel name attributes =
      some (TechnologyMap.mergeChain
        (TechnologyMap.parentChain what what.length name) attributes) := by
  obtain ⟨k, rfl⟩ : ∃ k, fuel = k + 1 := ⟨fuel - 1, by omega⟩
  have hk : what.length ≤ k := by omega
  rw [TechnologyMap.propagateAttributes_eq,
    if_pos (TechnologyMap.ancestor_none_of_le what name hfuel
      (TechnologyMap.Acyclic.ancestor_none what hac name)),
    TechnologyMap.Acyclic.parentChain_length what hac k name hk]

/-- The outcome of one flattening pass over an acyclic table. -/
theorem TechnologyMap.Acyclic.PropagateAttributes_eq (what : TechnologyMap E)
    (hnd : GoMap.NodupKeys what) (hac : TechnologyMap.Acyclic what) (fuel : Nat)
    (hfuel : what.length + 1 ≤ fuel) :
    TechnologyMap.PropagateAttributes what fuel = some (TechnologyMap.flattenedTable what) := by
  have hc := TechnologyMap.collect_eq what fuel
    (fun n => TechnologyMap.mergeChain (TechnologyMap.parentChain what what.length n) [])
    what [] (fun e _ => TechnologyMap.Acyclic.propagateAttributes_returns what hac fuel hfuel e.1 [])
  have he : what.foldl (fun m e => GoMap.delete m e.1) what = [] :=
    GoMap.foldl_delete_eq_nil what what
      (fun e he => List.mem_map.2 ⟨e, he, rfl⟩)
  simp only [TechnologyMap.PropagateAttributes, hc, he, List.nil_append]
  rw [TechnologyMap.foldl_set_fresh]
  · simp [TechnologyMap.flattenedTable, TechnologyMap.flattenedEntry, TechnologyMap.flattened,
      Function.comp_def]
  · simpa [Function.comp_def, GoMap.NodupKeys, GoMap.keys] using hnd
  · intro t _
    simp [GoMap.keys]

theorem TechnologyMap.keys_flattenedTable (what : TechnologyMap E) :
    GoMap.keys (TechnologyMap.flattenedTable what) = GoMap.keys what := by
  simp [TechnologyMap.flattenedTable, GoMap.keys, Function.comp_def]

theorem TechnologyMap.get_flattenedTable (what : TechnologyMap E) (name : String) :
    GoMap.get (TechnologyMap.flattenedTable what) name =
      (GoMap.get what name).map (TechnologyMap.flattenedEntry what name) := by
  unfold TechnologyMap.flattenedTable
  generalize TechnologyMap.flattenedEntry what = f
  induction what with
  | nil => simp [GoMap.get]
  | cons e rest ih =>
    obtain ⟨a, b⟩ := e
    by_cases h : a = name
    · simp [GoMap.get, h]
    · simpa [GoMap.get, h] using ih

/-! ## The table is read through its keys only -/

theorem TechnologyMap.ancestor_congr (what what' : TechnologyMap E)
    (h : ∀ name, GoMap.get what' name = GoMap.get what name) (k : Nat) (name : String) :
    TechnologyMap.ancestor what' k name = TechnologyMap.ancestor what k name := by
  induction k generalizing name with
  | zero => rfl
  | succ k ih =>
    simp only [TechnologyMap.ancestor, h name]
    cases GoMap.get what name with
    | none => rfl
    | some t => exact ih t.Parent

theorem TechnologyMap.parentChain_congr (what what' : TechnologyMap E)
    (h : ∀ name, GoMap.get what' name = GoMap.get what name) (k : Nat) (name : String) :
    TechnologyMap.parentChain what' k name = TechnologyMap.parentChain what k name := by
  induction k generalizing name with
  | zero => rfl
  | succ k ih =>
    simp only [TechnologyMap.parentChain, h name]
    cases GoMap.get what name with
    | none => rfl
    | some t => simp [ih t.Parent]

theorem TechnologyMap.Acyclic.congr (what what' : TechnologyMap E)
    (h : ∀ name, GoMap.get what' name = GoMap.get what name)
    (hac : TechnologyMap.Acyclic what) : TechnologyMap.Acyclic what' := by
  intro name i j m hi hj
  rw [TechnologyMap.ancestor_congr what what' h] at hi hj
  exact hac name i j m hi hj

theorem TechnologyMap.flattened_congr (what what' : TechnologyMap E)
    (h : ∀ name, GoMap.get what' name = GoMap.get what name)
    (hl : what'.length = what.length) (name : String) :
    TechnologyMap.flattened what' name = TechnologyMap.flattened what name := by
  simp [TechnologyMap.flattened, hl, TechnologyMap.parentChain_congr what what' h]

/-- One pass over a table holding the same entries in another order. -/
theorem TechnologyMap.get_flattenedTable_perm (what what' : TechnologyMap E)
    (hnd : GoMap.NodupKeys what) (hp : what'.Perm what) (name : String) :
    GoMap.get (TechnologyMap.flattenedTable what') name =
      GoMap.get (TechnologyMap.flattenedTable what) name := by
  have hg : ∀ name, GoMap.get what' name = GoMap.get what name :=
    fun name => (GoMap.get_perm hp.symm hnd name).symm
  have hf : TechnologyMap.flattenedEntry what' name = TechnologyMap.flattenedEntry what name := by
    funext value
    simp [TechnologyMap.flattenedEntry, TechnologyMap.flattened_congr what what' hg hp.length_eq]
  rw [TechnologyMap.get_flattenedTable, TechnologyMap.get_flattenedTable, hg name, hf]

/-! ## Claims about the technology table -/

/-- C2. Flattening of inherited attributes. For a well-formed table whose parent
chains are acyclic, `PropagateAttributes` returns once the fuel covers one
nested call more than the table has entries. Afterwards the names are those of
the table, and under every name `name` stands the old entry with `Name = name`
and the attribute bag `flattened what name`: the attribute maps merged along the
whole parent chain of `name`, from the most distant ancestor down to `name`,
with the key `name` set to true at the end. Key by key, `name` is true and any
other key has the value given by the nearest technology of the chain that holds
it. A table listing the same entries in another order yields the same result
under every name. -/
theorem TechnologyMap.PropagateAttributes_flattens (what : TechnologyMap E)
    (hwf : TechnologyMap.WellFormed what) (hac : TechnologyMap.Acyclic what)
    (fuel : Nat) (hfuel : what.length + 1 ≤ fuel) :
    ∃ result, TechnologyMap.PropagateAttributes what fuel = some result ∧
      GoMap.keys result = GoMap.keys what ∧
      (∀ name tech, GoMap.get what name = some tech →
        GoMap.get result name =
            some { tech with Attributes := TechnologyMap.flattened what name, Name := name } ∧
        (∀ k, what.length ≤ k →
          TechnologyMap.parentChain what k name =
            TechnologyMap.parentChain what what.length name) ∧
        ∀ key, GoMap.get (TechnologyMap.flattened what name) key =
          if name = key then some true
          else TechnologyMap.nearest (TechnologyMap.parentChain what what.length name) key) ∧
      (∀ what' : TechnologyMap E, what'.Perm what →
        ∃ result', TechnologyMap.PropagateAttributes what' fuel = some result' ∧
          ∀ name, GoMap.get result' name = GoMap.get result name) := by
  refine ⟨TechnologyMap.flattenedTable what,
    TechnologyMap.Acyclic.PropagateAttributes_eq what hwf.1 hac fuel hfuel,
    TechnologyMap.keys_flattenedTable what, ?_, ?_⟩
  · intro name tech hg
    refine ⟨?_, fun k hk => TechnologyMap.Acyclic.parentChain_length what hac k name hk,
      fun key => TechnologyMap.get_flattened what hwf name key⟩
    rw [TechnologyMap.get_flattenedTable, hg]
    rfl
  · intro what' hp
    have hg : ∀ name, GoMap.get what' name = GoMap.get what name :=
      fun name => (GoMap.get_perm hp.symm hwf.1 name).symm
    have hnd' : GoMap.NodupKeys what' := by
      unfold GoMap.NodupKeys GoMap.keys
      exact (hp.map Prod.fst).nodup_iff.2 hwf.1
    refine ⟨TechnologyMap.flattenedTable what', ?_,
      TechnologyMap.get_flattenedTable_perm what what' hwf.1 hp⟩
    exact TechnologyMap.Acyclic.PropagateAttributes_eq what' hnd'
      (TechnologyMap.Acyclic.congr what what' hg hac) fuel (by rw [hp.length_eq]; exact hfuel)

theorem TechnologyMap.collect_none (what : TechnologyMap E) (fuel : Nat)
    (entries : List (String × Technology E)) (acc : List (Technology E))
    (h : ∃ e ∈ entries, TechnologyMap.propagateAttributes what fuel e.1 [] = none) :
    TechnologyMap.PropagateAttributes.collect what fuel entries acc = none := by
  induction entries generalizing acc with
  | nil => obtain ⟨e, he, _⟩ := h; cases he
  | cons e rest ih =>
    obtain ⟨name, value⟩ := e
    cases hp : TechnologyMap.propagateAttributes what fuel name [] with
    | none => simp [TechnologyMap.PropagateAttributes.collect, hp]
    | some attributes =>
      simp only [TechnologyMap.PropagateAttributes.collect, hp]
      apply ih
      obtain ⟨e', he', hn⟩ := h
      rcases List.mem_cons.1 he' with rfl | he'
      · rw [hp] at hn; cases hn
      · exact ⟨e', he', hn⟩

/-- On a name that comes back to itself `propagateAttributes` never returns. -/
theorem TechnologyMap.propagateAttributes_none_of_cycle (what : TechnologyMap E) (x : String)
    (d : Nat) (hd : TechnologyMap.ancestor what (d + 1) x = some x) (fuel : Nat)
    (attributes : GoMap Bool) :
    TechnologyMap.propagateAttributes what fuel x attributes = none := by
  cases fuel with
  | zero => rfl
  | succ k =>
    rw [TechnologyMap.propagateAttributes_eq,
      if_neg (TechnologyMap.ancestor_cycle_ne_none what x d hd (k + 1))]

/-- C3, as the code has it. There is no cycle detection: the recursion is
bounded only by the table being acyclic. When no parent chain revisits a name,
`propagateAttributes` returns for every start name and every map within one
nested call more than the table has entries, and so does `PropagateAttributes`.
When some parent chain revisits a name, `propagateAttributes` started on that
name returns for no amount of fuel, and neither does `PropagateAttributes`. -/
theorem TechnologyMap.propagateAttributes_terminates (what : TechnologyMap E) :
    (TechnologyMap.Acyclic what →
      (∀ name attributes,
        (TechnologyMap.propagateAttributes what (what.length + 1) name attributes).isSome) ∧
      (TechnologyMap.PropagateAttributes what (what.length + 1)).isSome) ∧
    (¬ TechnologyMap.Acyclic what →
      (∃ name, ∀ fuel attributes,
        TechnologyMap.propagateAttributes what fuel name attributes = none) ∧
      ∀ fuel, TechnologyMap.PropagateAttributes what fuel = none) := by
  constructor
  · intro hac
    constructor
    · intro name attributes
      rw [TechnologyMap.Acyclic.propagateAttributes_returns what hac _ (Nat.le_refl _)]
      rfl
    · have hc := TechnologyMap.collect_eq what (what.length + 1)
        (fun n => TechnologyMap.mergeChain (TechnologyMap.parentChain what what.length n) [])
        what []
        (fun e _ =>
          TechnologyMap.Acyclic.propagateAttributes_returns what hac _ (Nat.le_refl _) e.1 [])
      simp [TechnologyMap.PropagateAttributes, hc]
  · intro hnac
    have hcyc : ∃ x d, TechnologyMap.ancestor what (d + 1) x = some x := by
      by_contra hno
      exact hnac (TechnologyMap.acyclic_of_no_return what
        (fun x d hd => hno ⟨x, d, hd⟩))
    obtain ⟨x, d, hd⟩ := hcyc
    refine ⟨⟨x, fun fuel attributes =>
      TechnologyMap.propagateAttributes_none_of_cycle what x d hd fuel attributes⟩, ?_⟩
    intro fuel
    have hxk : x ∈ GoMap.keys what := by
      apply (GoMap.get_isSome_iff what x).1
      cases hg : GoMap.get what x with
      | none => simp [TechnologyMap.ancestor, hg] at hd
      | some t => rfl
    obtain ⟨e, he, rfl⟩ := List.mem_map.1 hxk
    have := TechnologyMap.collect_none what fuel what []
      ⟨e, he, TechnologyMap.propagateAttributes_none_of_cycle what e.1 d hd fuel []⟩
    simp [TechnologyMap.PropagateAttributes, this]

/-- The converse of termination: when `propagateAttributes` returns for every
start name, no parent chain revisits a name. -/
theorem TechnologyMap.acyclic_of_propagateAttributes_returns (what : TechnologyMap E)
    (h : ∀ name, ∃ fuel, (TechnologyMap.propagateAttributes what fuel name []).isSome) :
    TechnologyMap.Acyclic what := by
  apply TechnologyMap.acyclic_of_no_return
  intro x d hd
  obtain ⟨fuel, hf⟩ := h x
  cases fuel with
  | zero => simp [TechnologyMap.propagateAttributes] at hf
  | succ k =>
    rw [TechnologyMap.propagateAttributes_eq] at hf
    by_cases hn : TechnologyMap.ancestor what (k + 1) x = none
    · exact TechnologyMap.ancestor_cycle_ne_none what x d hd (k + 1) hn
    · simp [hn] at hf

/-- C3, counterexample. On the table whose only technology `a` names itself as
its parent, no amount of fuel lets `propagateAttributes` or
`PropagateAttributes` return: the recursion does not end. -/
theorem TechnologyMap.propagateAttributes_selfParent_diverges :
    (¬ ∃ fuel, (TechnologyMap.propagateAttributes selfParentTable fuel "a" []).isSome) ∧
    (¬ ∃ fuel, (TechnologyMap.PropagateAttributes selfParentTable fuel).isSome) := by
  have hcyc : TechnologyMap.ancestor selfParentTable (0 + 1) "a" = some "a" := by decide
  have hnone : ∀ fuel, TechnologyMap.propagateAttributes selfParentTable fuel "a" [] = none :=
    fun fuel => TechnologyMap.propagateAttributes_none_of_cycle selfParentTable "a" 0 hcyc fuel []
  constructor
  · rintro ⟨fuel, hf⟩
    rw [hnone fuel] at hf
    cases hf
  · rintro ⟨fuel, hf⟩
    have hc := TechnologyMap.collect_none selfParentTable fuel selfParentTable []
      ⟨("a", { Name := "", Parent := "a", Attributes := [], Extra := () }),
        List.mem_cons_self _ _, hnone fuel⟩
    simp [TechnologyMap.PropagateAttributes, hc] at hf

/-! ## A second flattening pass -/

theorem TechnologyMap.ancestor_flattenedTable (what : TechnologyMap E) (k : Nat)
    (name : String) :
    TechnologyMap.ancestor (TechnologyMap.flattenedTable what) k name =
      TechnologyMap.ancestor what k name := by
  induction k generalizing name with
  | zero => rfl
  | succ k ih =>
    simp only [TechnologyMap.ancestor, TechnologyMap.get_flattenedTable]
    cases GoMap.get what name with
    | none => rfl
    | some t => exact ih t.Parent

theorem TechnologyMap.parentChain_flattenedTable (what : TechnologyMap E) (k : Nat)
    (name : String) :
    TechnologyMap.parentChain (TechnologyMap.flattenedTable what) k name =
      (TechnologyMap.parentChain what k name).map
        (fun e => (e.1, TechnologyMap.flattenedEntry what e.1 e.2)) := by
  induction k generalizing name with
  | zero => rfl
  | succ k ih =>
    simp only [TechnologyMap.parentChain, TechnologyMap.get_flattenedTable]
    cases GoMap.get what name with
    | none => rfl
    | some t =>
      have := ih t.Parent
      simp only [TechnologyMap.flattenedEntry] at this
      simp [TechnologyMap.flattenedEntry, this]

theorem TechnologyMap.length_flattenedTable (what : TechnologyMap E) :
    (TechnologyMap.flattenedTable what).length = what.length := by
  simp [TechnologyMap.flattenedTable]

theorem TechnologyMap.Acyclic.flattenedTable (what : TechnologyMap E)
    (hac : TechnologyMap.Acyclic what) :
    TechnologyMap.Acyclic (TechnologyMap.flattenedTable what) := by
  intro name i j m hi hj
  rw [TechnologyMap.ancestor_flattenedTable] at hi hj
  exact hac name i j m hi hj

theorem TechnologyMap.wellFormed_flattenedTable (what : TechnologyMap E)
    (hnd : GoMap.NodupKeys what) :
    TechnologyMap.WellFormed (TechnologyMap.flattenedTable what) := by
  constructor
  · unfold GoMap.NodupKeys
    rw [TechnologyMap.keys_flattenedTable]
    exact hnd
  · intro e he
    obtain ⟨e', _, rfl⟩ := List.mem_map.1 he
    exact TechnologyMap.nodupKeys_flattened what e'.1

/-- In an acyclic table, a chain that has left the table after `k + 1` steps is
the chain cut at the number of entries. -/
theorem TechnologyMap.Acyclic.parentChain_eq_of_none (what : TechnologyMap E)
    (hac : TechnologyMap.Acyclic what) (k : Nat) (name : String)
    (h : TechnologyMap.ancestor what (k + 1) name = none) :
    TechnologyMap.parentChain what what.length name =
      TechnologyMap.parentChain what k name := by
  rcases Nat.le_total k what.length with hk | hk
  · exact TechnologyMap.parentChain_stable what k what.length name h hk
  · exact (TechnologyMap.Acyclic.parentChain_length what hac k name hk).symm

/-- Along a chain none of whose original attribute maps holds `key`, the
once-flattened bags hold `key` exactly under the name `key` itself, as true. -/
theorem TechnologyMap.nearest_flattened_chain (what : TechnologyMap E)
    (hwf : TechnologyMap.WellFormed what) (hac : TechnologyMap.Acyclic what)
    (key : String) (k : Nat) (name : String)
    (hend : TechnologyMap.ancestor what (k + 1) name = none)
    (hnone : TechnologyMap.nearest (TechnologyMap.parentChain what k name) key = none) :
    TechnologyMap.nearest
        ((TechnologyMap.parentChain what k name).map
          (fun e => (e.1, TechnologyMap.flattenedEntry what e.1 e.2))) key =
      if key ∈ (TechnologyMap.parentChain what k name).map Prod.fst then some true
      else none := by
  induction k generalizing name with
  | zero => simp [TechnologyMap.parentChain, TechnologyMap.nearest]
  | succ k ih =>
    have hfl := TechnologyMap.get_flattened what hwf name key
    rw [TechnologyMap.Acyclic.parentChain_eq_of_none what hac (k + 1) name hend, hnone] at hfl
    cases hg : GoMap.get what name with
    | none => simp [TechnologyMap.parentChain, TechnologyMap.nearest, hg]
    | some t =>
      have hend' : TechnologyMap.ancestor what (k + 1) t.Parent = none := by
        simpa [TechnologyMap.ancestor, hg] using hend
      have hnone' : TechnologyMap.nearest (TechnologyMap.parentChain what k t.Parent) key
          = none := by
        have := hnone
        simp only [TechnologyMap.parentChain, hg, TechnologyMap.nearest] at this
        exact (Option.or_eq_none.1 this).2
      have ih' := ih t.Parent hend' hnone'
      simp only [TechnologyMap.parentChain, hg, List.map_cons, TechnologyMap.nearest,
        TechnologyMap.flattenedEntry, hfl, List.mem_cons]
      simp only [TechnologyMap.flattenedEntry] at ih'
      rw [ih']
      by_cases hk : name = key
      · simp [hk]
      · have hk' : ¬ key = name := fun h => hk h.symm
        simp only [hk, hk', if_false, false_or, Option.none_or]

/-- The bag of `name` after a second pass, key by key: what the first pass left,
and where that leaves a key unset, true under the names of the proper ancestors
of `name`. -/
theorem TechnologyMap.get_flattened_flattenedTable (what : TechnologyMap E)
    (hwf : TechnologyMap.WellFormed what) (hac : TechnologyMap.Acyclic what)
    (name key : String) (t : Technology E) (hg : GoMap.get what name = some t) :
    GoMap.get (TechnologyMap.flattened (TechnologyMap.flattenedTable what) name) key =
      (GoMap.get (TechnologyMap.flattened what name) key).or
        (if key ∈ TechnologyMap.properAncestors what name then some true else none) := by
  have hchain : TechnologyMap.parentChain what what.length name =
      (name, t) :: TechnologyMap.parentChain what what.length t.Parent := by
    rw [← TechnologyMap.Acyclic.parentChain_length what hac (what.length + 1) name
      (Nat.le_succ _)]
    simp [TechnologyMap.parentChain, hg]
  have hfl := TechnologyMap.get_flattened what hwf name key
  rw [TechnologyMap.get_flattened _ (TechnologyMap.wellFormed_flattenedTable what hwf.1),
    TechnologyMap.length_flattenedTable, TechnologyMap.parentChain_flattenedTable]
  have hprop : TechnologyMap.properAncestors what name =
      (TechnologyMap.parentChain what what.length t.Parent).map Prod.fst := by
    simp [TechnologyMap.properAncestors, hchain]
  rw [hprop]
  by_cases hk : name = key
  · simp [hk] at hfl ⊢
    simp [hfl]
  · rw [if_neg hk] at hfl ⊢
    rw [hchain] at hfl ⊢
    simp only [List.map_cons, TechnologyMap.nearest]
    have hhead : GoMap.get (TechnologyMap.flattenedEntry what name t).Attributes key =
        GoMap.get (TechnologyMap.flattened what name) key := rfl
    rw [hhead]
    cases hv : GoMap.get (TechnologyMap.flattened what name) key with
    | some v => simp
    | none =>
      rw [hv] at hfl
      have hrest : TechnologyMap.nearest
          (TechnologyMap.parentChain what what.length t.Parent) key = none := by
        have := hfl.symm
        simp only [TechnologyMap.nearest] at this
        exact (Option.or_eq_none.1 this).2
      rw [Option.none_or, Option.none_or]
      exact TechnologyMap.nearest_flattened_chain what hwf hac key what.length t.Parent
        (TechnologyMap.Acyclic.ancestor_none what hac t.Parent) hrest

/-- C10, as the code has it. Flattening is not idempotent. For a well-formed
acyclic table a second pass keeps the names and, under every name, the record's
`Name`, `Parent` and other fields, and every key and value of the bag the first
pass left; where the first pass left a key unset, the second sets it to true
when it is the name of a proper ancestor found in the table, and leaves it unset
otherwise. -/
theorem TechnologyMap.PropagateAttributes_twice (what : TechnologyMap E)
    (hwf : TechnologyMap.WellFormed what) (hac : TechnologyMap.Acyclic what)
    (fuel fuel' : Nat) (hfuel : what.length + 1 ≤ fuel) (hfuel' : what.length + 1 ≤ fuel') :
    ∃ once twice, TechnologyMap.PropagateAttributes what fuel = some once ∧
      TechnologyMap.PropagateAttributes once fuel' = some twice ∧
      GoMap.keys twice = GoMap.keys once ∧
      ∀ name t1, GoMap.get once name = some t1 →
        ∃ t2, GoMap.get twice name = some t2 ∧
          t2.Name = t1.Name ∧ t2.Parent = t1.Parent ∧ t2.Extra = t1.Extra ∧
          ∀ key, GoMap.get t2.Attributes key =
            (GoMap.get t1.Attributes key).or
              (if key ∈ TechnologyMap.properAncestors what name then some true else none) := by
  have hwf1 := TechnologyMap.wellFormed_flattenedTable what hwf.1
  refine ⟨TechnologyMap.flattenedTable what,
    TechnologyMap.flattenedTable (TechnologyMap.flattenedTable what),
    TechnologyMap.Acyclic.PropagateAttributes_eq what hwf.1 hac fuel hfuel,
    TechnologyMap.Acyclic.PropagateAttributes_eq _ hwf1.1
      (TechnologyMap.Acyclic.flattenedTable what hac) fuel'
      (by rw [TechnologyMap.length_flattenedTable]; exact hfuel'),
    TechnologyMap.keys_flattenedTable _, ?_⟩
  intro name t1 h1
  rw [TechnologyMap.get_flattenedTable] at h1
  cases hg : GoMap.get what name with
  | none => rw [hg] at h1; cases h1
  | some t =>
    rw [hg] at h1
    have ht1 : t1 = TechnologyMap.flattenedEntry what name t := by
      simpa using h1.symm
    subst ht1
    refine ⟨TechnologyMap.flattenedEntry (TechnologyMap.flattenedTable what) name
      (TechnologyMap.flattenedEntry what name t), ?_, rfl, rfl, rfl, ?_⟩
    · rw [TechnologyMap.get_flattenedTable, TechnologyMap.get_flattenedTable, hg]
      rfl
    · intro key
      exact TechnologyMap.get_flattened_flattenedTable what hwf hac name key t hg

/-- C10, counterexample. On the table `{p: attributes {x: true}; c: parent p, no
attributes}` the first pass leaves `c` without the key `p`, the second pass
sets `p` to true for `c`: the two tables differ. -/
theorem TechnologyMap.PropagateAttributes_not_idempotent :
    ∃ once twice, TechnologyMap.PropagateAttributes exampleTable 3 = some once ∧
      TechnologyMap.PropagateAttributes once 3 = some twice ∧
      (GoMap.get once "c").map (fun t => GoMap.get t.Attributes "p") = some none ∧
      (GoMap.get twice "c").map (fun t => GoMap.get t.Attributes "p") = some (some true) ∧
      twice ≠ once :=
  ⟨_, _, rfl, rfl, by decide, by decide, by decide⟩

/-! ## `GetAll` -/

theorem TechnologyMap.GetAll.loop_all_known (quote : String → String) (what : TechnologyMap E)
    (names : List String) (acc : List (Technology E))
    (h : ∀ n ∈ names, n ∈ GoMap.keys what) :
    TechnologyMap.GetAll.loop quote what names acc =
      (some (acc ++ names.filterMap (GoMap.get what)), none) := by
  induction names generalizing acc with
  | nil => simp [TechnologyMap.GetAll.loop]
  | cons n rest ih =>
    have hn := (GoMap.get_isSome_iff what n).2 (h n (List.mem_cons_self _ _))
    obtain ⟨t, ht⟩ := Option.isSome_iff_exists.1 hn
    simp [TechnologyMap.GetAll.loop, TechnologyMap.Get, ht,
      ih (acc ++ [t]) (fun m hm => h m (List.mem_cons_of_mem _ hm))]

theorem TechnologyMap.GetAll.loop_unknown (quote : String → String) (what : TechnologyMap E)
    (pre : List String) (name : String) (post : List String) (acc : List (Technology E))
    (hpre : ∀ n ∈ pre, n ∈ GoMap.keys what) (hname : name ∉ GoMap.keys what) :
    TechnologyMap.GetAll.loop quote what (pre ++ name :: post) acc =
      (none, some ⟨"unknown technology " ++ quote name⟩) := by
  induction pre generalizing acc with
  | nil =>
    have := (GoMap.get_eq_none_iff what name).2 hname
    simp [TechnologyMap.GetAll.loop, TechnologyMap.Get, this]
  | cons n rest ih =>
    have hn := (GoMap.get_isSome_iff what n).2 (hpre n (List.mem_cons_self _ _))
    obtain ⟨t, ht⟩ := Option.isSome_iff_exists.1 hn
    simp [TechnologyMap.GetAll.loop, TechnologyMap.Get, ht,
      ih (acc ++ [t]) (fun m hm => hpre m (List.mem_cons_of_mem _ hm))]

/-- Among names that are not all keys there is a first one that is no key. -/
theorem TechnologyMap.exists_first_unknown (what : TechnologyMap E) (names : List String)
    (h : ∃ n ∈ names, n ∉ GoMap.keys what) :
    ∃ pre name post, names = pre ++ name :: post ∧
      (∀ n ∈ pre, n ∈ GoMap.keys what) ∧ name ∉ GoMap.keys what := by
  induction names with
  | nil => obtain ⟨n, hn, _⟩ := h; cases hn
  | cons a rest ih =>
    by_cases ha : a ∈ GoMap.keys what
    · have : ∃ n ∈ rest, n ∉ GoMap.keys what := by
        obtain ⟨n, hn, hk⟩ := h
        rcases List.mem_cons.1 hn with rfl | hn
        · exact absurd ha hk
        · exact ⟨n, hn, hk⟩
      obtain ⟨pre, name, post, he, hp, hk⟩ := ih this
      refine ⟨a :: pre, name, post, by simp [he], ?_, hk⟩
      intro n hn
      rcases List.mem_cons.1 hn with rfl | hn
      · exact ha
      · exact hp n hn
    · exact ⟨[], a, rest, rfl, by simp, ha⟩

/-- C8. `GetAll` is all-or-nothing and keeps the order. It returns an error
exactly when some name is no key of the table; the error is then
`unknown technology` followed by the quoted first such name, and the list is
nil. When every name is a key it returns no error and a list as long as the
names whose `i`-th element is the table entry of the `i`-th name, repeated
names included. For no names it returns the empty, non-nil list and no
error. -/
theorem TechnologyMap.GetAll_all_or_nothing (quote : String → String)
    (what : TechnologyMap E) (names : List String) :
    ((TechnologyMap.GetAll quote what names).2.isSome ↔
        ∃ n ∈ names, n ∉ GoMap.keys what) ∧
    (∀ pre name post, names = pre ++ name :: post →
        (∀ n ∈ pre, n ∈ GoMap.keys what) → name ∉ GoMap.keys what →
        TechnologyMap.GetAll quote what names =
          (none, some ⟨"unknown technology " ++ quote name⟩)) ∧
    ((∀ n ∈ names, n ∈ GoMap.keys what) →
        ∃ technologies, TechnologyMap.GetAll quote what names = (some technologies, none) ∧
          technologies.length = names.length ∧
          ∀ i, i < names.length →
            technologies[i]? = (names[i]?).bind (GoMap.get what)) ∧
    TechnologyMap.GetAll quote what [] = (some [], none) := by
  have hok : (∀ n ∈ names, n ∈ GoMap.keys what) →
      ∃ technologies, TechnologyMap.GetAll quote what names = (some technologies, none) ∧
        technologies.length = names.length ∧
        ∀ i, i < names.length →
          technologies[i]? = (names[i]?).bind (GoMap.get what) := by
    intro h
    have hmap : (names.filterMap (GoMap.get what)).map some = names.map (GoMap.get what) := by
      clear * - h
      induction names with
      | nil => rfl
      | cons n rest ih =>
        have hn := (GoMap.get_isSome_iff what n).2 (h n (List.mem_cons_self _ _))
        obtain ⟨t, ht⟩ := Option.isSome_iff_exists.1 hn
        simp [List.filterMap_cons, ht, ih (fun m hm => h m (List.mem_cons_of_mem _ hm))]
    refine ⟨names.filterMap (GoMap.get what), ?_, ?_, ?_⟩
    · simpa [TechnologyMap.GetAll] using TechnologyMap.GetAll.loop_all_known quote what names [] h
    · simpa using congrArg List.length hmap
    · intro i hi
      have := congrArg (fun l => l[i]?) hmap
      simp only [List.getElem?_map] at this
      cases hn : names[i]? with
      | none => simp [List.getElem?_eq_none_iff] at hn; omega
      | some n =>
        rw [hn] at this
        simp only [Option.map_some', Option.bind] at this ⊢
        cases ht : (names.filterMap (GoMap.get what))[i]? with
        | none => rw [ht] at this; simp at this
        | some t => rw [ht] at this; simpa using this
  refine ⟨?_, ?_, hok, rfl⟩
  · constructor
    · intro herr
      by_contra hno
      have hall : ∀ n ∈ names, n ∈ GoMap.keys what := by
        intro n hn
        by_contra hk
        exact hno ⟨n, hn, hk⟩
      obtain ⟨technologies, he, _⟩ := hok hall
      rw [he] at herr
      cases herr
    · intro hex
      obtain ⟨pre, name, post, he, hp, hk⟩ := TechnologyMap.exists_first_unknown what names hex
      rw [he, TechnologyMap.GetAll, TechnologyMap.GetAll.loop_unknown quote what pre name post []
        hp hk]
      rfl
  · intro pre name post he hp hk
    rw [he, TechnologyMap.GetAll, TechnologyMap.GetAll.loop_unknown quote what pre name post []
      hp hk]

/-! ## The fuel of `doPrintf` -/

theorem Fmt.parsenumLoop_length (s : List Char) (num : Nat) (isnum : Bool) :
    (Fmt.parsenumLoop s num isnum).2.2.length ≤ s.length := by
  induction s generalizing num isnum with
  | nil => simp [Fmt.parsenumLoop]
  | cons c rest ih =>
    unfold Fmt.parsenumLoop
    split
    · split
      · simp
      · exact Nat.le_succ_of_le (ih _ _)
    · simp

theorem Fmt.parsenum_length (s : List Char) : (Fmt.parsenum s).2.2.length ≤ s.length :=
  Fmt.parsenumLoop_length s 0 false

theorem Fmt.parseArgNumber_length (body : List Char) :
    (Fmt.parseArgNumber body).1.length ≤ body.length := by
  unfold Fmt.parseArgNumber
  split
  · simp
  · split
    · simp
    · rename_i inner c after hspan
      have h := List.span_eq_take_drop (fun c => decide (c ≠ ']')) body
      rw [hspan] at h
      have h2 : after.length < body.length := by
        have hd : (c :: after) = List.dropWhile (fun c => decide (c ≠ ']')) body := by
          simpa using (congrArg Prod.snd h)
        have hle := (List.dropWhile_suffix (fun c => decide (c ≠ ']')) (l := body)).length_le
        rw [← hd] at hle
        simpa using hle
      simp only
      split <;> simp <;> omega

theorem Fmt.argNumber_length (s : List Char) (good : Bool) :
    (Fmt.argNumber s good).1.length ≤ s.length := by
  unfold Fmt.argNumber
  split
  · rename_i body
    have := Fmt.parseArgNumber_length body
    simp only [List.length_cons]
    omega
  · simp

theorem Fmt.verbWidth_length (s : List Char) (afterIndex good : Bool) :
    (Fmt.verbWidth s afterIndex good).2.1.length ≤ s.length := by
  unfold Fmt.verbWidth
  split
  · simp
  · exact Fmt.parsenum_length s

theorem Fmt.verbPrecision_length (out s : List Char) (afterIndex good : Bool) :
    (Fmt.verbPrecision out s afterIndex good).2.1.length ≤ s.length := by
  unfold Fmt.verbPrecision
  split
  · rename_i c rest
    have ha := Fmt.argNumber_length (c :: rest) (if afterIndex then false else good)
    simp only
    split
    · rename_i s'' hs
      rw [hs] at ha
      simp only [List.length_cons] at ha ⊢
      omega
    · have hp := Fmt.parsenum_length
        (Fmt.argNumber (c :: rest) (if afterIndex = true then false else good)).1
      simp only [List.length_cons] at ha ⊢
      omega
  · simp

theorem Fmt.verbIndex_length (s : List Char) (afterIndex good : Bool) :
    (Fmt.verbIndex s afterIndex good).1.length ≤ s.length := by
  unfold Fmt.verbIndex
  split
  · simp
  · exact Fmt.argNumber_length s good

theorem Fmt.verbEmit_length (out s : List Char) (good : Bool) :
    (Fmt.verbEmit out s good).2.length ≤ s.length := by
  unfold Fmt.verbEmit
  split
  · simp
  · split
    · simp
    · split <;> simp

/-- A verb leaves no more text than it was given. -/
theorem Fmt.verb_length (s : List Char) : (Fmt.verb s).2.length ≤ s.length := by
  unfold Fmt.verb
  simp only
  have h0 := (List.dropWhile_suffix Fmt.isFlag (l := s)).length_le
  have h1 := Fmt.argNumber_length (s.dropWhile Fmt.isFlag) true
  have h2 := Fmt.verbWidth_length (Fmt.argNumber (s.dropWhile Fmt.isFlag) true).1
    (Fmt.argNumber (s.dropWhile Fmt.isFlag) true).2.1
    (Fmt.argNumber (s.dropWhile Fmt.isFlag) true).2.2
  generalize Fmt.verbWidth (Fmt.argNumber (s.dropWhile Fmt.isFlag) true).1
    (Fmt.argNumber (s.dropWhile Fmt.isFlag) true).2.1
    (Fmt.argNumber (s.dropWhile Fmt.isFlag) true).2.2 = w at h2 ⊢
  have h3 := Fmt.verbPrecision_length w.1 w.2.1 w.2.2.1 w.2.2.2
  generalize Fmt.verbPrecision w.1 w.2.1 w.2.2.1 w.2.2.2 = p at h3 ⊢
  have h4 := Fmt.verbIndex_length p.2.1 p.2.2.1 p.2.2.2
  generalize Fmt.verbIndex p.2.1 p.2.2.1 p.2.2.2 = i at h4 ⊢
  have h5 := Fmt.verbEmit_length p.1 i.1 i.2
  omega

/-- The fuel of `doPrintf` does not matter once it exceeds the length of the
text: the loop is never cut short. -/
theorem Fmt.doPrintf_fuel (n : Nat) (s : List Char) (fuel fuel' : Nat)
    (hn : s.length ≤ n) (h : s.length < fuel) (h' : s.length < fuel') :
    Fmt.doPrintf fuel s = Fmt.doPrintf fuel' s := by
  induction n generalizing s fuel fuel' with
  | zero =>
    have : s = [] := List.length_eq_zero.1 (Nat.le_zero.1 hn)
    subst this
    cases fuel <;> cases fuel' <;> simp [Fmt.doPrintf]
  | succ n ih =>
    cases s with
    | nil => cases fuel <;> cases fuel' <;> simp [Fmt.doPrintf]
    | cons c rest =>
      obtain ⟨k, rfl⟩ : ∃ k, fuel = k + 1 := ⟨fuel - 1, by omega⟩
      obtain ⟨k', rfl⟩ : ∃ k', fuel' = k' + 1 := ⟨fuel' - 1, by omega⟩
      simp only [List.length_cons] at hn h h'
      have hv := Fmt.verb_length rest
      simp only [Fmt.doPrintf]
      split
      · rw [ih (Fmt.verb rest).2 k k' (by omega) (by omega) (by omega)]
      · rw [ih rest k k' (by omega) (by omega) (by omega)]

/-! ## Facts about `fmt` without operands -/

/-- A format string without `%` is written out unchanged. -/
theorem Fmt.doPrintf_of_no_percent (s : List Char) (fuel : Nat) (hfuel : s.length < fuel)
    (h : '%' ∉ s) : Fmt.doPrintf fuel s = s := by
  induction s generalizing fuel with
  | nil => cases fuel <;> rfl
  | cons c rest ih =>
    obtain ⟨k, rfl⟩ : ∃ k, fuel = k + 1 := ⟨fuel - 1, by omega⟩
    have hc : ¬ c = '%' := fun hc => h (by simp [hc])
    have hr : '%' ∉ rest := fun hr => h (List.mem_cons_of_mem _ hr)
    have hk : rest.length < k := by simpa using hfuel
    simp [Fmt.doPrintf, hc, ih k hk hr]

/-- `Sprintf` leaves a text without `%` as it is. -/
theorem Fmt.Sprintf_of_no_percent (format : String) (h : '%' ∉ format.data) :
    Fmt.Sprintf format = format := by
  have hl : format.length = format.data.length := rfl
  unfold Fmt.Sprintf
  rw [Fmt.doPrintf_of_no_percent format.data _ (by omega) h]

/-! ## Claims about `RiskRule` -/

/-- C1. Fail-fast atomicity of `RiskRule.GenerateRisks`. Whenever it returns an
error its risk list is nil; and when the script is there, the scope is created
and bound, and the script's own `GenerateRisks` reports an error, then
`RiskRule.GenerateRisks` returns an error and the nil list, whatever risks the
script handed back with its error. -/
theorem RiskRule.GenerateRisks_fail_fast (ext : Externals) (what : RiskRule ext)
    (parsedModel : ext.Model) :
    ((RiskRule.GenerateRisks ext what parsedModel).err ≠ none →
      (RiskRule.GenerateRisks ext what parsedModel).result = none) ∧
    (∀ script, what.script = some script →
      (ext.NewScope (some script) what.category).2 = none →
      (ext.SetModel (ext.NewScope (some script) what.category).1 parsedModel).2 = none →
      (ext.GenerateRisks script
        (ext.SetModel (ext.NewScope (some script) what.category).1 parsedModel).1).2.2 ≠ none →
      (RiskRule.GenerateRisks ext what parsedModel).err ≠ none ∧
      (RiskRule.GenerateRisks ext what parsedModel).result = none) := by
  constructor
  · unfold RiskRule.GenerateRisks
    cases what.script with
    | none => simp
    | some script =>
      simp only
      cases h1 : (ext.NewScope (some script) what.category).2 with
      | some e => simp
      | none =>
        simp only
        cases h2 : (ext.SetModel (ext.NewScope (some script) what.category).1 parsedModel).2 with
        | some e => simp
        | none =>
          simp only
          cases h3 : (ext.GenerateRisks script
            (ext.SetModel (ext.NewScope (some script) what.category).1 parsedModel).1).2.2 with
          | some e => simp
          | none => simp
  · intro script hs h1 h2 h3
    obtain ⟨e, he⟩ := Option.ne_none_iff_exists'.1 h3
    unfold RiskRule.GenerateRisks
    simp [hs, h1, h2, he]

/-- What the callees cannot reach stays: `supportedTags` is the same after the
call whatever the callees write. -/
theorem ByReference.RiskRule.GenerateRisks_supportedTags (ext : Externals)
    (ops : ScriptEffects ext) (what : RiskRule ext) (parsedModel : ext.Model) :
    (ByReference.RiskRule.GenerateRisks ext ops what parsedModel).1.what.supportedTags =
      what.supportedTags := by
  unfold ByReference.RiskRule.GenerateRisks
  cases what.script with
  | none => rfl
  | some script =>
    simp only
    split
    · rfl
    · split
      · rfl
      · split <;> rfl

/-- With callees that write nothing, the embedding with the writes made visible
is the embedding used for the other claims, and the model stays. -/
theorem ByReference.RiskRule.GenerateRisks_ofExternals (ext : Externals)
    (what : RiskRule ext) (parsedModel : ext.Model) :
    ByReference.RiskRule.GenerateRisks ext (ScriptEffects.ofExternals ext) what parsedModel =
      (Threagile.RiskRule.GenerateRisks ext what parsedModel, parsedModel) := by
  obtain ⟨category, tags, script⟩ := what
  cases script with
  | none => rfl
  | some script =>
    unfold ByReference.RiskRule.GenerateRisks Threagile.RiskRule.GenerateRisks
    simp only [ScriptEffects.ofExternals, ByReference.writeBack]
    cases (ext.NewScope (some script) category).2 with
    | some e => rfl
    | none =>
      simp only
      cases (ext.SetModel (ext.NewScope (some script) category).1 parsedModel).2 with
      | some e => rfl
      | none =>
        simp only
        cases (ext.GenerateRisks script
          (ext.SetModel (ext.NewScope (some script) category).1 parsedModel).1).2.2 with
        | some e => rfl
        | none => rfl

/-- The proviso of C6 is needed: when the evaluation wears the script down, the
first call on a rule flagging `1` and `2` returns two risks and leaves a rule
that flags `2` only, and the second call returns one risk. -/
theorem ByReference.RiskRule.GenerateRisks_differs_when_script_written :
    (ByReference.RiskRule.GenerateRisks toyExternals toyWearingEffects
      (toyRule [1, 2] "asset missing") [1, 2, 3]).1.result = some [(5, 1), (5, 2)] ∧
    (ByReference.RiskRule.GenerateRisks toyExternals toyWearingEffects
      (toyRule [1, 2] "asset missing") [1, 2, 3]).1.what.script =
        some ([2], "asset missing") ∧
    (ByReference.RiskRule.GenerateRisks toyExternals toyWearingEffects
      (ByReference.RiskRule.GenerateRisks toyExternals toyWearingEffects
        (toyRule [1, 2] "asset missing") [1, 2, 3]).1.what
      (ByReference.RiskRule.GenerateRisks toyExternals toyWearingEffects
        (toyRule [1, 2] "asset missing") [1, 2, 3]).2).1.result = some [(5, 2)] :=
  ⟨by decide, by decide, by decide⟩

/-- C7. Rule loading result. `RiskRule.ParseFromData` returns the receiver and a
nil error exactly when the category decode, the rule decode and the script
build on the value under `risk` all succeed. The receiver then holds the
decoded supported tags, the category decoded from the same text and the built
script. In every other case it returns a nil rule and the error of the first
step that failed. -/
theorem RiskRule.ParseFromData_result (ext : Externals) (what : RiskRule ext)
    (text : ext.Bytes) :
    ((RiskRule.ParseFromData ext what text).err = none ↔
      (ext.unmarshalCategory text what.category).2 = none ∧
      (ext.unmarshalRule text).2 = none ∧
      (ext.ParseScript (ext.unmarshalRule text).1.2).2 = none) ∧
    ((RiskRule.ParseFromData ext what text).err = none →
      (RiskRule.ParseFromData ext what text).result =
        some (RiskRule.ParseFromData ext what text).what ∧
      RiskRule.SupportedTags (RiskRule.ParseFromData ext what text).what =
        (ext.unmarshalRule text).1.1 ∧
      RiskRule.Category (RiskRule.ParseFromData ext what text).what =
        (ext.unmarshalCategory text what.category).1 ∧
      (RiskRule.ParseFromData ext what text).what.script =
        (ext.ParseScript (ext.unmarshalRule text).1.2).1) ∧
    (∀ e, (ext.unmarshalCategory text what.category).2 = some e →
      (RiskRule.ParseFromData ext what text).result = none ∧
      (RiskRule.ParseFromData ext what text).err = some e) ∧
    ((ext.unmarshalCategory text what.category).2 = none →
      ∀ e, (ext.unmarshalRule text).2 = some e →
      (RiskRule.ParseFromData ext what text).result = none ∧
      (RiskRule.ParseFromData ext what text).err = some e) ∧
    ((ext.unmarshalCategory text what.category).2 = none →
      (ext.unmarshalRule text).2 = none →
      ∀ e, (ext.ParseScript (ext.unmarshalRule text).1.2).2 = some e →
      (RiskRule.ParseFromData ext what text).result = none ∧
      (RiskRule.ParseFromData ext what text).err = some e) := by
  cases h1 : (ext.unmarshalCategory text what.category).2 with
  | some e1 => simp [RiskRule.ParseFromData, h1]
  | none =>
    cases h2 : (ext.unmarshalRule text).2 with
    | some e2 => simp [RiskRule.ParseFromData, h1, h2]
    | none =>
      cases h3 : (ext.ParseScript (ext.unmarshalRule text).1.2).2 with
      | some e3 => simp [RiskRule.ParseFromData, h1, h2, h3]
      | none =>
        simp [RiskRule.ParseFromData, RiskRule.SupportedTags, RiskRule.Category, h1, h2, h3]

theorem RiskRule.GetTechnicalAssetsByRiskID.loop_all_convert (ext : Externals)
    (generic : List ext.GenericAsset) (acc : List ext.TechnicalAsset)
    (h : ∀ g ∈ generic, ∃ a, RiskRule.convert ext g = .ok a) :
    ∃ assets, RiskRule.GetTechnicalAssetsByRiskID.loop ext generic acc =
        (some (acc ++ assets), none) ∧
      generic.map (RiskRule.convert ext) = assets.map Except.ok := by
  induction generic generalizing acc with
  | nil => exact ⟨[], by simp [RiskRule.GetTechnicalAssetsByRiskID.loop], rfl⟩
  | cons g rest ih =>
    obtain ⟨a, ha⟩ := h g (List.mem_cons_self _ _)
    unfold RiskRule.convert at ha
    cases hm : (ext.Marshal g).2 with
    | some e => simp [hm] at ha
    | none =>
      cases hu : (ext.Unmarshal (ext.Marshal g).1).2 with
      | some e => simp [hm, hu] at ha
      | none =>
        simp only [hm, hu, Except.ok.injEq] at ha
        obtain ⟨assets, hl, hmap⟩ := ih (acc ++ [a]) (fun g' hg' => h g' (List.mem_cons_of_mem _ hg'))
        refine ⟨a :: assets, ?_, ?_⟩
        · simp [RiskRule.GetTechnicalAssetsByRiskID.loop, hm, hu, ha, hl]
        · simp [hmap, RiskRule.convert, hm, hu, ha]

theorem RiskRule.GetTechnicalAssetsByRiskID.loop_fail (ext : Externals)
    (pre : List ext.GenericAsset) (g : ext.GenericAsset) (post : List ext.GenericAsset)
    (acc : List ext.TechnicalAsset) (e : GoError)
    (hpre : ∀ g' ∈ pre, ∃ a, RiskRule.convert ext g' = .ok a)
    (hg : RiskRule.convert ext g = .error e) :
    RiskRule.GetTechnicalAssetsByRiskID.loop ext (pre ++ g :: post) acc = (none, some e) := by
  induction pre generalizing acc with
  | nil =>
    unfold RiskRule.convert at hg
    cases hm : (ext.Marshal g).2 with
    | some e' =>
      simp only [hm, Except.error.injEq] at hg
      simp [RiskRule.GetTechnicalAssetsByRiskID.loop, hm, hg]
    | none =>
      cases hu : (ext.Unmarshal (ext.Marshal g).1).2 with
      | some e' =>
        simp only [hm, hu, Except.error.injEq] at hg
        simp [RiskRule.GetTechnicalAssetsByRiskID.loop, hm, hu, hg]
      | none => simp [hm, hu] at hg
  | cons g' rest ih =>
    obtain ⟨a, ha⟩ := hpre g' (List.mem_cons_self _ _)
    unfold RiskRule.convert at ha
    cases hm : (ext.Marshal g').2 with
    | some e' => simp [hm] at ha
    | none =>
      cases hu : (ext.Unmarshal (ext.Marshal g').1).2 with
      | some e' => simp [hm, hu] at ha
      | none =>
        simp [RiskRule.GetTechnicalAssetsByRiskID.loop, hm, hu,
          ih (acc ++ [(ext.Unmarshal (ext.Marshal g').1).1])
            (fun g'' hg'' => hpre g'' (List.mem_cons_of_mem _ hg''))]

/-- C5. Reverse lookup mirrors the script's lookup. For a rule with a script,
once the scope is created and bound: when the script's lookup fails, the rule's
lookup returns that error and the nil list; when it returns generic assets all
of which convert, the rule's lookup returns as many technical assets, the
`i`-th the conversion of the `i`-th generic asset; and when the first asset that
fails to convert fails with `e`, the rule's lookup returns `e` and the nil
list. -/
theorem RiskRule.GetTechnicalAssetsByRiskID_mirrors (ext : Externals) (what : RiskRule ext)
    (script : ext.Script) (parsedModel : ext.Model) (riskID : String)
    (hs : what.script = some script)
    (hscope : (ext.NewScope what.script what.category).2 = none)
    (hmodel : (ext.SetModel (ext.NewScope what.script what.category).1 parsedModel).2 = none) :
    (∀ e, (ext.GetTechnicalAssetsByRiskID script
          (RiskRule.boundScope ext what parsedModel) riskID).2 = some e →
      (RiskRule.GetTechnicalAssetsByRiskID ext what parsedModel riskID).result = none ∧
      (RiskRule.GetTechnicalAssetsByRiskID ext what parsedModel riskID).err = some e) ∧
    ((ext.GetTechnicalAssetsByRiskID script
          (RiskRule.boundScope ext what parsedModel) riskID).2 = none →
      ((∀ g ∈ (ext.GetTechnicalAssetsByRiskID script
            (RiskRule.boundScope ext what parsedModel) riskID).1,
          ∃ a, RiskRule.convert ext g = .ok a) →
        ∃ assets,
          (RiskRule.GetTechnicalAssetsByRiskID ext what parsedModel riskID).result
            = some assets ∧
          (RiskRule.GetTechnicalAssetsByRiskID ext what parsedModel riskID).err = none ∧
          assets.length = (ext.GetTechnicalAssetsByRiskID script
            (RiskRule.boundScope ext what parsedModel) riskID).1.length ∧
          (ext.GetTechnicalAssetsByRiskID script
            (RiskRule.boundScope ext what parsedModel) riskID).1.map (RiskRule.convert ext)
            = assets.map Except.ok) ∧
      (∀ pre g post e,
        (ext.GetTechnicalAssetsByRiskID script
          (RiskRule.boundScope ext what parsedModel) riskID).1 = pre ++ g :: post →
        (∀ g' ∈ pre, ∃ a, RiskRule.convert ext g' = .ok a) →
        RiskRule.convert ext g = .error e →
        (RiskRule.GetTechnicalAssetsByRiskID ext what parsedModel riskID).result = none ∧
        (RiskRule.GetTechnicalAssetsByRiskID ext what parsedModel riskID).err = some e)) := by
  obtain ⟨category, tags, scr⟩ := what
  simp only at hs hscope hmodel
  subst hs
  refine ⟨?_, ?_⟩
  · intro e he
    unfold RiskRule.boundScope at he
    simp only at he
    simp [RiskRule.GetTechnicalAssetsByRiskID, hscope, hmodel, he]
  · intro hfound
    unfold RiskRule.boundScope at hfound ⊢
    simp only at hfound ⊢
    refine ⟨?_, ?_⟩
    · intro hall
      obtain ⟨assets, hl, hmap⟩ := RiskRule.GetTechnicalAssetsByRiskID.loop_all_convert ext _ [] hall
      refine ⟨assets, ?_, ?_, ?_, hmap⟩
      · simp [RiskRule.GetTechnicalAssetsByRiskID, hscope, hmodel, hfound, hl]
      · simp [RiskRule.GetTechnicalAssetsByRiskID, hscope, hmodel, hfound, hl]
      · simpa using (congrArg List.length hmap).symm
    · intro pre g post e hsplit hpre hg
      have hl := RiskRule.GetTechnicalAssetsByRiskID.loop_fail ext pre g post [] e hpre hg
      rw [← hsplit] at hl
      simp [RiskRule.GetTechnicalAssetsByRiskID, hscope, hmodel, hfound, hl]

/-- C9, what the code does. For a rule whose script is nil,
`RiskRule.GenerateRisks` makes no call and returns `no script found in risk
rule` with the nil list. `RiskRule.GetTechnicalAssetsByRiskID` does not: its
first act is `NewScope` on the nil script, an error of that call is what it
returns, and its own check of the script comes only after `SetModel`. -/
theorem RiskRule.GetTechnicalAssetsByRiskID_nil_script (ext : Externals)
    (category : ext.Category) (tags : Option (List String)) (parsedModel : ext.Model)
    (riskID : String) :
    (RiskRule.GenerateRisks ext ⟨category, tags, none⟩ parsedModel).calls = [] ∧
    (RiskRule.GenerateRisks ext ⟨category, tags, none⟩ parsedModel).result = none ∧
    (RiskRule.GenerateRisks ext ⟨category, tags, none⟩ parsedModel).err =
      some ⟨"no script found in risk rule"⟩ ∧
    (RiskRule.GetTechnicalAssetsByRiskID ext ⟨category, tags, none⟩ parsedModel riskID).calls.head?
      = some ScriptCall.NewScope ∧
    (∀ e, (ext.NewScope none category).2 = some e →
      (RiskRule.GetTechnicalAssetsByRiskID ext ⟨category, tags, none⟩ parsedModel riskID).err
        = some e) ∧
    ((ext.NewScope none category).2 = none →
      (ext.SetModel (ext.NewScope none category).1 parsedModel).2 = none →
      (RiskRule.GetTechnicalAssetsByRiskID ext ⟨category, tags, none⟩ parsedModel riskID).calls
        = [ScriptCall.NewScope, ScriptCall.SetModel] ∧
      (RiskRule.GetTechnicalAssetsByRiskID ext ⟨category, tags, none⟩ parsedModel riskID).err
        = some ⟨"no script found in risk rule"⟩) := by
  have hE : Errorf "no script found in risk rule" = ⟨"no script found in risk rule"⟩ := by
    decide
  refine ⟨rfl, rfl, ?_, ?_, ?_, ?_⟩
  · simp [RiskRule.GenerateRisks, hE]
  · unfold RiskRule.GetTechnicalAssetsByRiskID
    cases h1 : (ext.NewScope none category).2 with
    | some e => simp [h1]
    | none =>
      cases h2 : (ext.SetModel (ext.NewScope none category).1 parsedModel).2 with
      | some e => simp [h1, h2]
      | none => simp [h1, h2]
  · intro e he
    simp [RiskRule.GetTechnicalAssetsByRiskID, he]
  · intro h1 h2
    simp [RiskRule.GetTechnicalAssetsByRiskID, h1, h2, hE]

/-- The message of `RiskRule.GenerateRisks` when neither the error text nor the
indented fragment holds a `%`: the text after the prefix, and the `in:` section
exactly when the fragment is not empty. -/
theorem RiskRule.riskErrorMessage_of_no_percent (ext : Externals) (riskError : GoError)
    (errorLiteral : String) (hE : '%' ∉ riskError.Error.data)
    (hF : '%' ∉ (ext.IndentPrintf 1 errorLiteral).data) :
    Errorf (RiskRule.riskErrorMessage ext riskError errorLiteral) =
      ⟨"error generating risks: " ++ riskError.Error ++ "\n" ++
        (if errorLiteral.length > 0 then
          "\n" ++ ("in:\n" ++ ext.IndentPrintf 1 errorLiteral ++ "\n") else "")⟩ := by
  unfold Errorf
  have hp1 : '%' ∉ ("error generating risks: " ++ riskError.Error ++ "\n").data := by
    simp only [String.data_append, List.mem_append, not_or]
    exact ⟨⟨by decide, hE⟩, by decide⟩
  have hp2 : '%' ∉ ("in:\n" ++ ext.IndentPrintf 1 errorLiteral ++ "\n").data := by
    simp only [String.data_append, List.mem_append, not_or]
    exact ⟨⟨by decide, hF⟩, by decide⟩
  by_cases hl : errorLiteral.length > 0
  · have hm : RiskRule.riskErrorMessage ext riskError errorLiteral =
        "error generating risks: " ++ riskError.Error ++ "\n" ++
          ("\n" ++ ("in:\n" ++ ext.IndentPrintf 1 errorLiteral ++ "\n")) := by
      unfold RiskRule.riskErrorMessage
      simp only [if_pos hl]
      exact String.append_assoc _ _ _
    rw [hm, if_pos hl, Fmt.Sprintf_of_no_percent]
    simp only [String.data_append, List.mem_append, not_or] at hp1 hp2 ⊢
    exact ⟨hp1, by decide, hp2⟩
  · have hm : RiskRule.riskErrorMessage ext riskError errorLiteral =
        "error generating risks: " ++ riskError.Error ++ "\n" := by
      unfold RiskRule.riskErrorMessage
      simp only [if_neg hl]
      rfl
    rw [hm, if_neg hl, Fmt.Sprintf_of_no_percent _ hp1]
    simp

/-- C4, the failing run. The script stops at the missing asset `9` with the
error text `100% of assets failed`, after one risk. `RiskRule.GenerateRisks`
assembles the message with that text in it and then hands the message to
`Errorf` as a format string: `% o` is read as a verb without operand, and the
returned message no longer holds the error text. -/
theorem RiskRule.GenerateRisks_percent_mangled :
    toyExternals.GenerateRisks ([1, 9, 2], "100% of assets failed") ((5 : Nat), [1, 2]) =
      (some [(5, 1)], "flag-asset", some ⟨"100% of assets failed"⟩) ∧
    RiskRule.riskErrorMessage toyExternals ⟨"100% of assets failed"⟩ "flag-asset" =
      "error generating risks: 100% of assets failed\n\nin:\n    flag-asset\n" ∧
    (RiskRule.GenerateRisks toyExternals (toyRule [1, 9, 2] "100% of assets failed") [1, 2]).err =
      some ⟨"error generating risks: 100%!o(MISSING)f assets failed\n\nin:\n    flag-asset\n"⟩ :=
  ⟨by decide, by decide, by decide⟩

/-! ## The theorems at concrete inputs -/

theorem wellFormed_layeredTable : TechnologyMap.WellFormed layeredTable := by
  unfold TechnologyMap.WellFormed GoMap.NodupKeys
  decide

theorem acyclic_layeredTable : TechnologyMap.Acyclic layeredTable :=
  TechnologyMap.acyclic_of_check layeredTable (by decide)

theorem wellFormed_exampleTable : TechnologyMap.WellFormed exampleTable := by
  unfold TechnologyMap.WellFormed GoMap.NodupKeys
  decide

theorem acyclic_exampleTable : TechnologyMap.Acyclic exampleTable :=
  TechnologyMap.acyclic_of_check exampleTable (by decide)

/-- C2 on the three-level table: `shop` inherits `http` from `web`, and the
`public` of `shop` overrides that of `web` and `base`. -/
theorem TechnologyMap.PropagateAttributes_flattens_witness :
    TechnologyMap.WellFormed layeredTable ∧ TechnologyMap.Acyclic layeredTable ∧
    ∃ result, TechnologyMap.PropagateAttributes layeredTable 4 = some result ∧
      GoMap.keys result = ["shop", "web", "base"] ∧
      (GoMap.get result "shop").map (fun t => t.Attributes) =
        some [("public", true), ("http", true), ("shop", true)] ∧
      (GoMap.get result "web").map (fun t => t.Attributes) =
        some [("public", false), ("http", true), ("web", true)] := by
  obtain ⟨result, hres, hkeys, hget, _⟩ :=
    TechnologyMap.PropagateAttributes_flattens layeredTable wellFormed_layeredTable
      acyclic_layeredTable 4 (by decide)
  refine ⟨wellFormed_layeredTable, acyclic_layeredTable, result, hres, ?_, ?_, ?_⟩
  · rw [hkeys]
    decide
  · rw [(hget "shop" _ (rfl : GoMap.get layeredTable "shop" = some
      { Name := "", Parent := "web", Attributes := [("public", true)], Extra := () })).1]
    decide
  · rw [(hget "web" _ (rfl : GoMap.get layeredTable "web" = some
      { Name := "", Parent := "base", Attributes := [("public", false), ("http", true)],
        Extra := () })).1]
    decide

/-- C3 on the acyclic table `{p; c: parent p}`: three nested calls suffice. -/
theorem TechnologyMap.propagateAttributes_terminates_witness :
    TechnologyMap.Acyclic exampleTable ∧
    (TechnologyMap.propagateAttributes exampleTable 3 "c" []).isSome ∧
    (TechnologyMap.PropagateAttributes exampleTable 3).isSome :=
  ⟨acyclic_exampleTable,
    ((TechnologyMap.propagateAttributes_terminates exampleTable).1 acyclic_exampleTable).1 "c" [],
    ((TechnologyMap.propagateAttributes_terminates exampleTable).1 acyclic_exampleTable).2⟩

/-- C10 on the table `{p: attributes {x: true}; c: parent p}`: the second
pass keeps what `c` held and adds `p`, the name of its parent. -/
theorem TechnologyMap.PropagateAttributes_twice_witness :
    TechnologyMap.WellFormed exampleTable ∧ TechnologyMap.Acyclic exampleTable ∧
    TechnologyMap.properAncestors exampleTable "c" = ["p"] ∧
    ∃ once twice, TechnologyMap.PropagateAttributes exampleTable 3 = some once ∧
      TechnologyMap.PropagateAttributes once 3 = some twice ∧
      GoMap.keys twice = GoMap.keys once ∧
      ∀ name t1, GoMap.get once name = some t1 →
        ∃ t2, GoMap.get twice name = some t2 ∧
          ∀ key, GoMap.get t2.Attributes key =
            (GoMap.get t1.Attributes key).or
              (if key ∈ TechnologyMap.properAncestors exampleTable name then some true
               else none) := by
  obtain ⟨once, twice, h1, h2, hk, hget⟩ :=
    TechnologyMap.PropagateAttributes_twice exampleTable wellFormed_exampleTable
      acyclic_exampleTable 3 3 (by decide) (by decide)
  refine ⟨wellFormed_exampleTable, acyclic_exampleTable, by decide, once, twice, h1, h2, hk, ?_⟩
  intro name t1 ht1
  obtain ⟨t2, ht2, _, _, _, hattr⟩ := hget name t1 ht1
  exact ⟨t2, ht2, hattr⟩

/-- C1 in the small interpreter: the script stops at the missing asset `9`
holding one risk; the rule method returns the error and no risk. -/
theorem RiskRule.GenerateRisks_fail_fast_witness :
    (toyExternals.GenerateRisks ([1, 9, 2], "asset missing") ((5 : Nat), [1, 2])).1 =
      some [(5, 1)] ∧
    (RiskRule.GenerateRisks toyExternals (toyRule [1, 9, 2] "asset missing") [1, 2]).err ≠ none ∧
    (RiskRule.GenerateRisks toyExternals (toyRule [1, 9, 2] "asset missing") [1, 2]).result
      = none :=
  ⟨by decide,
    (RiskRule.GenerateRisks_fail_fast toyExternals (toyRule [1, 9, 2] "asset missing")
      [1, 2]).2 ([1, 9, 2], "asset missing") rfl rfl rfl (by decide)⟩

/-- C5 in the small interpreter: the rule flags `1`, `2`, `3`, the model holds
`1` and `2`, and the lookup returns the two converted assets. -/
theorem RiskRule.GetTechnicalAssetsByRiskID_mirrors_witness :
    (toyRule [1, 2, 3] "asset missing").script = some ([1, 2, 3], "asset missing") ∧
    (toyExternals.GetTechnicalAssetsByRiskID ([1, 2, 3], "asset missing")
      (RiskRule.boundScope toyExternals (toyRule [1, 2, 3] "asset missing") [1, 2])
      "flagged") = ([1, 2], none) ∧
    ∃ assets,
      (RiskRule.GetTechnicalAssetsByRiskID toyExternals (toyRule [1, 2, 3] "asset missing")
        [1, 2] "flagged").result = some assets ∧
      (RiskRule.GetTechnicalAssetsByRiskID toyExternals (toyRule [1, 2, 3] "asset missing")
        [1, 2] "flagged").err = none ∧
      assets.length = 2 := by
  have hfound : (toyExternals.GetTechnicalAssetsByRiskID ([1, 2, 3], "asset missing")
      (RiskRule.boundScope toyExternals (toyRule [1, 2, 3] "asset missing") [1, 2])
      "flagged") = ([1, 2], none) := by decide
  have hconv : ∀ g ∈ (toyExternals.GetTechnicalAssetsByRiskID ([1, 2, 3], "asset missing")
      (RiskRule.boundScope toyExternals (toyRule [1, 2, 3] "asset missing") [1, 2])
      "flagged").1, ∃ a, RiskRule.convert toyExternals g = .ok a := by
    rw [hfound]
    intro g hg
    rcases List.mem_cons.1 hg with rfl | hg
    · exact ⟨1, rfl⟩
    · rcases List.mem_cons.1 hg with rfl | hg
      · exact ⟨2, rfl⟩
      · cases hg
  obtain ⟨assets, hr, he, hl, _⟩ :=
    ((RiskRule.GetTechnicalAssetsByRiskID_mirrors toyExternals
      (toyRule [1, 2, 3] "asset missing") ([1, 2, 3], "asset missing") [1, 2] "flagged"
      rfl rfl rfl).2 (by rw [hfound])).1 hconv
  refine ⟨rfl, hfound, assets, hr, he, ?_⟩
  rw [hl, hfound]
  rfl

/-- C7 in the small interpreter: the text `7, 3, 1, 2` decodes to category `7`,
the tag list and the script flagging `1` and `2`; the text `7, 0` fails at the
rule decode, after the category decode. -/
theorem RiskRule.ParseFromData_result_witness :
    (RiskRule.ParseFromData toyExternals toyUnparsedRule [7, 3, 1, 2]).err = none ∧
    (RiskRule.ParseFromData toyExternals toyUnparsedRule [7, 3, 1, 2]).what.script =
      some ([1, 2], "asset missing") ∧
    RiskRule.Category (RiskRule.ParseFromData toyExternals toyUnparsedRule [7, 3, 1, 2]).what =
      (7 : Nat) ∧
    (RiskRule.ParseFromData toyExternals toyUnparsedRule [7, 0]).result = none ∧
    (RiskRule.ParseFromData toyExternals toyUnparsedRule [7, 0]).err =
      some ⟨"cannot decode rule"⟩ := by
  have h := RiskRule.ParseFromData_result toyExternals toyUnparsedRule [7, 3, 1, 2]
  have h' := RiskRule.ParseFromData_result toyExternals toyUnparsedRule [7, 0]
  have herr := h.1.2 ⟨rfl, rfl, rfl⟩
  exact ⟨herr, (h.2.1 herr).2.2.2, (h.2.1 herr).2.2.1, h'.2.2.2.1 rfl ⟨"cannot decode rule"⟩ rfl⟩

/-- C8 on the three-level table: the first unknown name decides the error, and
a repeated name is returned twice. -/
theorem TechnologyMap.GetAll_all_or_nothing_witness :
    TechnologyMap.GetAll (fun s => "\"" ++ s ++ "\"") layeredTable
        ["web", "nope", "shop", "gone"] =
      (none, some ⟨"unknown technology \"nope\""⟩) ∧
    ∃ technologies,
      TechnologyMap.GetAll (fun s => "\"" ++ s ++ "\"") layeredTable ["web", "web"] =
        (some technologies, none) ∧
      technologies.length = 2 := by
  have h1 := (TechnologyMap.GetAll_all_or_nothing (fun s => "\"" ++ s ++ "\"") layeredTable
    ["web", "nope", "shop", "gone"]).2.1 ["web"] "nope" ["shop", "gone"] rfl
    (by decide) (by decide)
  obtain ⟨technologies, h2, h3, _⟩ :=
    (TechnologyMap.GetAll_all_or_nothing (fun s => "\"" ++ s ++ "\"") layeredTable
      ["web", "web"]).2.2.1 (by decide)
  exact ⟨h1, technologies, h2, h3⟩

end Threagile
